import Mathlib

/-!
Shallow embedding of the in-memory time-series database (`src/point.py`,
`src/series.py`, `src/aggregate.py`, `src/query.py`, `src/database.py`)
and proofs about it.

Modelling conventions:
* Python `datetime` values are an opaque totally ordered instant type; they are
  modelled as `Int` (only comparisons are used by the code).
* Python field values (`Any`, used as numeric / string) are modelled by the
  tagged union `FValue`; `isinstance(v, (int, float))` becomes the `FValue.num`
  case (Python `bool` is an `int` subclass, so booleans fall in `num` as 0/1).
* Python `dict`s are modelled as insertion-ordered association lists with
  unique keys; `set`s of strings as duplicate-free lists.
* Operations that can raise are modelled in `Except PyErr`.
-/

/-- Python exception kinds raised by the modelled code paths. -/
inductive PyErr where
  | indexError : PyErr
  | valueError : String → PyErr
  | typeError : PyErr
  deriving Repr, DecidableEq

/-- Timestamps: an opaque totally ordered instant (Python `datetime`). -/
abbrev Timestamp := Int

/-- A field value: Python `Any` restricted to the shapes the code inspects.
`num` covers `int`/`float` (and `bool`, an `int` subclass); `str` covers
strings.  `isinstance(v, (int, float))` is exactly the `num` case. -/
inductive FValue where
  | num : ℚ → FValue
  | str : String → FValue
  deriving Repr, DecidableEq

/-- Embeds `Point` (src/point.py): measurement, fields, tags, timestamp.
`__post_init__` normalises `tags`/`timestamp`, so both are total here. -/
structure Point where
  measurement : String
  fields : List (String × FValue)
  tags : List (String × String)
  timestamp : Timestamp
  deriving Repr, DecidableEq

/-- Comparison used by Python `sorted(self.tags.items())`: lexicographic on
(key, value) pairs. -/
def tagOrd (a b : String × String) : Prop :=
  a.1 < b.1 ∨ (a.1 = b.1 ∧ a.2 ≤ b.2)

instance : DecidableRel tagOrd := fun a b => by
  unfold tagOrd; infer_instance

instance : IsTotal (String × String) tagOrd := by
  constructor
  intro a b
  rcases lt_trichotomy a.1 b.1 with h | h | h
  · exact Or.inl (Or.inl h)
  · rcases le_total a.2 b.2 with h2 | h2
    · exact Or.inl (Or.inr ⟨h, h2⟩)
    · exact Or.inr (Or.inr ⟨h.symm, h2⟩)
  · exact Or.inr (Or.inl h)

instance : IsTrans (String × String) tagOrd := by
  constructor
  intro a b c hab hbc
  rcases hab with h1 | ⟨h1, h1v⟩
  · rcases hbc with h2 | ⟨h2, _⟩
    · exact Or.inl (h1.trans h2)
    · exact Or.inl (h2 ▸ h1)
  · rcases hbc with h2 | ⟨h2, h2v⟩
    · exact Or.inl (h1 ▸ h2)
    · exact Or.inr ⟨h1.trans h2, h1v.trans h2v⟩

instance : IsAntisymm (String × String) tagOrd := by
  constructor
  intro a b hab hba
  rcases hab with h1 | ⟨h1, h1v⟩
  · rcases hba with h2 | ⟨h2, _⟩
    · exact absurd (h1.trans h2) (lt_irrefl _)
    · exact absurd h1 (h2 ▸ lt_irrefl _)
  · rcases hba with h2 | ⟨h2, h2v⟩
    · exact absurd h2 (h1 ▸ lt_irrefl _)
    · exact Prod.ext h1 (le_antisymm h1v h2v)

/-- Embeds `Point.get_series_key` (src/point.py lines 28-39): empty tags give
the bare measurement, otherwise the tags are sorted by Python tuple order and
rendered `k=v`, comma separated, after the measurement and a comma. -/
def Point.get_series_key (p : Point) : String :=
  if p.tags.isEmpty then p.measurement
  else
    p.measurement ++ "," ++
      String.intercalate "," ((List.insertionSort tagOrd p.tags).map
        (fun kv => kv.1 ++ "=" ++ kv.2))

/-- Embeds `Series` (src/series.py): parallel lists `_points`/`_timestamps`
kept sorted by timestamp. -/
structure Series where
  measurement : String
  tags : List (String × String)
  points : List Point
  timestamps : List Timestamp
  deriving Repr, DecidableEq

/-- Fresh series as built by `Series.__init__`. -/
def Series.mkEmpty (measurement : String) (tags : List (String × String)) : Series :=
  ⟨measurement, tags, [], []⟩

/-- Models Python `bisect.bisect_left(a, x)` under the class invariant that
`a` is sorted: the first index whose element is `≥ x`, i.e. the length of the
prefix of elements `< x`. -/
def bisectLeft (l : List Timestamp) (x : Timestamp) : Nat :=
  (l.takeWhile (fun y => decide (y < x))).length

/-- Models Python `bisect.bisect_right(a, x)` under the sortedness invariant:
the first index whose element is `> x`. -/
def bisectRight (l : List Timestamp) (x : Timestamp) : Nat :=
  (l.takeWhile (fun y => decide (y ≤ x))).length

/-- Embeds `Series.add_point` (src/series.py lines 23-30): finds the insertion
index with `bisect_left` on `_timestamps` and inserts into both lists there
(`list.insert(idx, v)` is `take idx ++ [v] ++ drop idx`). -/
def Series.add_point (s : Series) (p : Point) : Series :=
  let idx := bisectLeft s.timestamps p.timestamp
  { s with
    timestamps := s.timestamps.take idx ++ p.timestamp :: s.timestamps.drop idx,
    points := s.points.take idx ++ p :: s.points.drop idx }

/-- Embeds `Series.query_range` (src/series.py lines 32-51): empty series gives
`[]`; otherwise slice `_points[start_idx:end_idx]` with `bisect_left` for the
start bound and `bisect_right` for the end bound (`none` bound = 0 / length). -/
def Series.query_range (s : Series) (start? end? : Option Timestamp) : List Point :=
  if s.points.isEmpty then []
  else
    let start_idx := match start? with
      | none => 0
      | some st => bisectLeft s.timestamps st
    let end_idx := match end? with
      | none => s.points.length
      | some en => bisectRight s.timestamps en
    (s.points.drop start_idx).take (end_idx - start_idx)

/-- Embeds `Series.count`. -/
def Series.count (s : Series) : Nat := s.points.length

/-- Embeds `Series.clear`. -/
def Series.clearAll (s : Series) : Series :=
  { s with points := [], timestamps := [] }

/-- Well-formedness a `Series` maintains: the two parallel lists agree and the
timestamps are non-decreasing. -/
def Series.WF (s : Series) : Prop :=
  s.timestamps = s.points.map Point.timestamp ∧
    s.timestamps.Pairwise (· ≤ ·)

/-- Folding `add_point` over a list of points, starting from a fresh series:
the generic "any sequence of inserts". -/
def Series.buildFrom (measurement : String) (tags : List (String × String))
    (ps : List Point) : Series :=
  ps.foldl Series.add_point (Series.mkEmpty measurement tags)

theorem take_length_takeWhile {α : Type} (p : α → Bool) (l : List α) :
    l.take (l.takeWhile p).length = l.takeWhile p := by
  induction l with
  | nil => rfl
  | cons a as ih =>
    by_cases h : p a
    · simp [List.takeWhile_cons, h, ih]
    · simp [List.takeWhile_cons, h]

theorem drop_length_takeWhile {α : Type} (p : α → Bool) (l : List α) :
    l.drop (l.takeWhile p).length = l.dropWhile p := by
  induction l with
  | nil => rfl
  | cons a as ih =>
    by_cases h : p a
    · simp [List.takeWhile_cons, List.dropWhile_cons, h, ih]
    · simp [List.takeWhile_cons, List.dropWhile_cons, h]

theorem bisectLeft_map_timestamp (ps : List Point) (x : Timestamp) :
    bisectLeft (ps.map Point.timestamp) x
      = (ps.takeWhile (fun q => decide (q.timestamp < x))).length := by
  unfold bisectLeft
  rw [List.takeWhile_map]
  simp only [List.length_map]
  rfl

theorem bisectRight_map_timestamp (ps : List Point) (x : Timestamp) :
    bisectRight (ps.map Point.timestamp) x
      = (ps.takeWhile (fun q => decide (q.timestamp ≤ x))).length := by
  unfold bisectRight
  rw [List.takeWhile_map]
  simp only [List.length_map]
  rfl

theorem add_point_points_eq (s : Series) (p : Point) (h : s.WF) :
    (s.add_point p).points
      = s.points.takeWhile (fun q => decide (q.timestamp < p.timestamp))
          ++ p :: s.points.dropWhile (fun q => decide (q.timestamp < p.timestamp)) := by
  obtain ⟨hpar, _⟩ := h
  show s.points.take (bisectLeft s.timestamps p.timestamp)
      ++ p :: s.points.drop (bisectLeft s.timestamps p.timestamp) = _
  rw [hpar, bisectLeft_map_timestamp, take_length_takeWhile, drop_length_takeWhile]

theorem mem_dropWhile_lt_ge (l : List Timestamp) (x : Timestamp)
    (h : l.Pairwise (· ≤ ·)) :
    ∀ b ∈ l.dropWhile (fun y => decide (y < x)), x ≤ b := by
  induction l with
  | nil => simp
  | cons a as ih =>
    intro b hb
    rw [List.dropWhile_cons] at hb
    by_cases hax : a < x
    · simp only [hax, decide_eq_true_eq, if_pos] at hb
      exact ih (List.pairwise_cons.mp h).2 b hb
    · simp only [hax, decide_eq_true_eq, if_neg] at hb
      rcases List.mem_cons.mp hb with rfl | hb
      · exact le_of_not_lt hax
      · exact le_trans (le_of_not_lt hax) ((List.pairwise_cons.mp h).1 b hb)

theorem insert_bisectLeft_pairwise (l : List Timestamp) (x : Timestamp)
    (h : l.Pairwise (· ≤ ·)) :
    (l.take (bisectLeft l x) ++ x :: l.drop (bisectLeft l x)).Pairwise (· ≤ ·) := by
  unfold bisectLeft
  rw [take_length_takeWhile, drop_length_takeWhile, List.pairwise_append]
  refine ⟨h.sublist (List.takeWhile_sublist _), ?_, ?_⟩
  · rw [List.pairwise_cons]
    exact ⟨mem_dropWhile_lt_ge l x h, h.sublist (List.dropWhile_sublist _)⟩
  · intro a ha b hb
    have hax : a < x := by
      have := List.mem_takeWhile_imp ha
      exact of_decide_eq_true this
    rcases List.mem_cons.mp hb with rfl | hb
    · exact le_of_lt hax
    · exact le_of_lt (lt_of_lt_of_le hax (mem_dropWhile_lt_ge l x h b hb))

theorem add_point_WF (s : Series) (p : Point) (h : s.WF) : (s.add_point p).WF := by
  obtain ⟨hpar, hsort⟩ := h
  constructor
  · show s.timestamps.take (bisectLeft s.timestamps p.timestamp)
          ++ p.timestamp :: s.timestamps.drop (bisectLeft s.timestamps p.timestamp)
        = (s.points.take (bisectLeft s.timestamps p.timestamp)
          ++ p :: s.points.drop (bisectLeft s.timestamps p.timestamp)).map Point.timestamp
    rw [List.map_append, List.map_take, List.map_cons, List.map_drop, ← hpar]
  · exact insert_bisectLeft_pairwise s.timestamps p.timestamp hsort

theorem buildFrom_WF_aux (ps : List Point) (s : Series) (h : s.WF) :
    (ps.foldl Series.add_point s).WF := by
  induction ps generalizing s with
  | nil => exact h
  | cons p ps ih => exact ih _ (add_point_WF s p h)

theorem buildFrom_WF (m : String) (t : List (String × String)) (ps : List Point) :
    (Series.buildFrom m t ps).WF :=
  buildFrom_WF_aux ps _ ⟨rfl, List.Pairwise.nil⟩

/-- Concrete points with equal timestamps used for tie-break examples. -/
def cpA : Point := ⟨"m", [("f", FValue.num 1)], [], 5⟩

/-- Second concrete point, same timestamp as `cpA` but distinguishable. -/
def cpB : Point := ⟨"m", [("f", FValue.num 2)], [], 5⟩

/-- C1 counterexample: inserting `cpA` then `cpB` (equal timestamps) yields
stored order `[cpB, cpA]` — the newer point is placed BEFORE the existing
equal-timestamp point (the code uses `bisect_left`), not after it as the claim
states (which would require `[cpA, cpB]`). -/
theorem C1_counterexample :
    (((Series.mkEmpty "m" []).add_point cpA).add_point cpB).points = [cpB, cpA]
      ∧ [cpB, cpA] ≠ [cpA, cpB] := by
  constructor
  · rfl
  · decide

/-- C1 (amended): for every sequence of inserts the stored points are
non-decreasing by timestamp at all times (and the parallel timestamp list
mirrors them), and a newly inserted point is placed after exactly the points
with strictly smaller timestamp — hence BEFORE all existing points of equal
timestamp, reversing arrival order among equal timestamps. -/
theorem C1_sorted_and_tie_break :
    (∀ m t ps, (Series.buildFrom m t ps).WF ∧
      ((Series.buildFrom m t ps).points.map Point.timestamp).Pairwise (· ≤ ·)) ∧
    (∀ (s : Series) (p : Point), s.WF →
      (s.add_point p).points
        = s.points.takeWhile (fun q => decide (q.timestamp < p.timestamp))
            ++ p :: s.points.dropWhile (fun q => decide (q.timestamp < p.timestamp))) := by
  constructor
  · intro m t ps
    have h := buildFrom_WF m t ps
    exact ⟨h, h.1 ▸ h.2⟩
  · exact add_point_points_eq

/-- C1 witness: the amended theorem applied to the concrete one-point series
`[cpA]` and to the new point `cpB`. -/
theorem C1_amended_witness :
    ((Series.buildFrom "m" [] [cpA]).add_point cpB).points
      = (Series.buildFrom "m" [] [cpA]).points.takeWhile
          (fun q => decide (q.timestamp < cpB.timestamp))
        ++ cpB :: (Series.buildFrom "m" [] [cpA]).points.dropWhile
          (fun q => decide (q.timestamp < cpB.timestamp)) :=
  C1_sorted_and_tie_break.2 (Series.buildFrom "m" [] [cpA]) cpB
    (C1_sorted_and_tie_break.1 "m" [] [cpA]).1

theorem sorted_takeWhile_le_eq_filter (en : Timestamp) (ps : List Point)
    (h : ps.Pairwise (fun x y => x.timestamp ≤ y.timestamp)) :
    ps.takeWhile (fun q => decide (q.timestamp ≤ en))
      = ps.filter (fun q => decide (q.timestamp ≤ en)) := by
  induction ps with
  | nil => rfl
  | cons p ps ih =>
    obtain ⟨hp, hps⟩ := List.pairwise_cons.mp h
    by_cases hle : p.timestamp ≤ en
    · simp [List.takeWhile_cons, List.filter_cons, hle, ih hps]
    · simp only [List.takeWhile_cons, List.filter_cons, hle, decide_False,
        Bool.false_eq_true, if_false]
      symm
      rw [List.filter_eq_nil_iff]
      intro q hq
      simp only [decide_eq_true_eq]
      exact fun hq2 => hle (le_trans (hp q hq) hq2)

theorem sorted_dropWhile_lt_eq_filter (st : Timestamp) (ps : List Point)
    (h : ps.Pairwise (fun x y => x.timestamp ≤ y.timestamp)) :
    ps.dropWhile (fun q => decide (q.timestamp < st))
      = ps.filter (fun q => decide (st ≤ q.timestamp)) := by
  induction ps with
  | nil => rfl
  | cons p ps ih =>
    obtain ⟨hp, hps⟩ := List.pairwise_cons.mp h
    by_cases hlt : p.timestamp < st
    · simp [List.dropWhile_cons, List.filter_cons, hlt, not_le.mpr hlt, ih hps]
    · have hge : st ≤ p.timestamp := le_of_not_lt hlt
      simp only [List.dropWhile_cons, List.filter_cons, hlt, decide_False,
        Bool.false_eq_true, if_false, hge, decide_True, if_true]
      congr 1
      symm
      apply List.filter_eq_self.mpr
      intro q hq
      exact decide_eq_true (le_trans hge (hp q hq))

theorem sorted_slice_both (st en : Timestamp) (ps : List Point)
    (h : ps.Pairwise (fun x y => x.timestamp ≤ y.timestamp)) :
    (ps.dropWhile (fun q => decide (q.timestamp < st))).take
        ((ps.takeWhile (fun q => decide (q.timestamp ≤ en))).length
          - (ps.takeWhile (fun q => decide (q.timestamp < st))).length)
      = ps.filter (fun q => decide (st ≤ q.timestamp) && decide (q.timestamp ≤ en)) := by
  induction ps with
  | nil => rfl
  | cons p ps ih =>
    obtain ⟨hp, hps⟩ := List.pairwise_cons.mp h
    by_cases hlt : p.timestamp < st
    · by_cases hen : p.timestamp ≤ en
      · simpa [List.dropWhile_cons, List.takeWhile_cons, List.filter_cons, hlt, hen,
          not_le.mpr hlt, Nat.succ_sub_succ] using ih hps
      · simp only [List.dropWhile_cons, List.takeWhile_cons, List.filter_cons, hlt,
          hen, decide_True, decide_False, Bool.false_eq_true, if_true, if_false,
          not_le.mpr hlt, Bool.false_and, List.length_nil, Nat.zero_sub,
          List.take_zero]
        symm
        rw [List.filter_eq_nil_iff]
        intro q hq
        simp only [Bool.and_eq_true, decide_eq_true_eq, not_and]
        exact fun _ hq2 => hen (le_trans (hp q hq) hq2)
    · have hge : st ≤ p.timestamp := le_of_not_lt hlt
      have hdw : (p :: ps).dropWhile (fun q => decide (q.timestamp < st)) = p :: ps := by
        simp [List.dropWhile_cons, hlt]
      have htw : (p :: ps).takeWhile (fun q => decide (q.timestamp < st)) = [] := by
        simp [List.takeWhile_cons, hlt]
      rw [hdw, htw, List.length_nil, Nat.sub_zero, take_length_takeWhile,
        sorted_takeWhile_le_eq_filter en (p :: ps) h]
      apply List.filter_congr
      intro q hq
      have hq2 : st ≤ q.timestamp := by
        rcases List.mem_cons.mp hq with rfl | hq
        · exact hge
        · exact le_trans hge (hp q hq)
      simp [hq2]

/-- Boolean form of "`start ≤ t ≤ end` with absent bounds unbounded". -/
def tsInRange (start? end? : Option Timestamp) (t : Timestamp) : Bool :=
  (match start? with
    | none => true
    | some st => decide (st ≤ t)) &&
  (match end? with
    | none => true
    | some en => decide (t ≤ en))

theorem query_range_eq_filter (s : Series) (h : s.WF) (a b : Option Timestamp) :
    s.query_range a b = s.points.filter (fun q => tsInRange a b q.timestamp) := by
  obtain ⟨hpar, hsort⟩ := h
  have hps : s.points.Pairwise (fun x y => x.timestamp ≤ y.timestamp) :=
    List.pairwise_map.mp (hpar ▸ hsort)
  by_cases hempty : s.points.isEmpty
  · have hnil : s.points = [] := List.isEmpty_iff.mp hempty
    simp [Series.query_range, hempty, hnil]
  · unfold Series.query_range
    rw [if_neg (by simp [hempty])]
    cases a with
    | none =>
      cases b with
      | none =>
        show List.take (s.points.length - 0) (List.drop 0 s.points) = _
        rw [List.drop_zero, Nat.sub_zero, List.take_length]
        symm
        apply List.filter_eq_self.mpr
        intro q _
        rfl
      | some en =>
        show List.take (bisectRight s.timestamps en - 0) (List.drop 0 s.points) = _
        rw [hpar, bisectRight_map_timestamp, List.drop_zero, Nat.sub_zero,
          take_length_takeWhile, sorted_takeWhile_le_eq_filter en s.points hps]
        apply List.filter_congr
        intro q _
        simp [tsInRange]
    | some st =>
      cases b with
      | none =>
        show List.take (s.points.length - bisectLeft s.timestamps st)
            (List.drop (bisectLeft s.timestamps st) s.points) = _
        rw [hpar, bisectLeft_map_timestamp, drop_length_takeWhile]
        have hlen : (s.points.dropWhile (fun q => decide (q.timestamp < st))).length
            = s.points.length
              - (s.points.takeWhile (fun q => decide (q.timestamp < st))).length := by
          have hsplit := congrArg List.length
            (List.takeWhile_append_dropWhile
              (p := fun q => decide (q.timestamp < st)) (l := s.points))
          rw [List.length_append] at hsplit
          omega
        rw [List.take_of_length_le (le_of_eq hlen),
          sorted_dropWhile_lt_eq_filter st s.points hps]
        apply List.filter_congr
        intro q _
        simp [tsInRange]
      | some en =>
        show List.take (bisectRight s.timestamps en - bisectLeft s.timestamps st)
            (List.drop (bisectLeft s.timestamps st) s.points) = _
        rw [hpar, bisectLeft_map_timestamp, bisectRight_map_timestamp,
          drop_length_takeWhile, sorted_slice_both st en s.points hps]
        apply List.filter_congr
        intro q _
        simp [tsInRange]

theorem take_drop_split (l : List Point) (si k : Nat) :
    ∃ pre post, pre ++ List.take k (List.drop si l) ++ post = l :=
  ⟨l.take si, (l.drop si).drop k, by
    rw [List.append_assoc, List.take_append_drop, List.take_append_drop]⟩

theorem query_range_split (s : Series) (a b : Option Timestamp) :
    ∃ pre post, pre ++ s.query_range a b ++ post = s.points := by
  unfold Series.query_range
  by_cases hempty : s.points.isEmpty
  · rw [if_pos hempty]
    exact ⟨[], s.points, rfl⟩
  · rw [if_neg (by simp [hempty])]
    exact take_drop_split s.points _ _

/-- C2 (confirmed): on a well-formed series, `query_range(start, end)` returns
exactly the points with `start ≤ t ≤ end` (absent bound unbounded), it is a
contiguous slice of the stored points (no gaps, no duplicates), and its
timestamps are ascending. -/
theorem C2_range_query_correct (s : Series) (h : s.WF) (a b : Option Timestamp) :
    s.query_range a b = s.points.filter (fun q => tsInRange a b q.timestamp) ∧
    (∃ pre post, pre ++ s.query_range a b ++ post = s.points) ∧
    ((s.query_range a b).map Point.timestamp).Pairwise (· ≤ ·) := by
  obtain ⟨hpar, hsort⟩ := h
  refine ⟨query_range_eq_filter s ⟨hpar, hsort⟩ a b, query_range_split s a b, ?_⟩
  have hsub : (s.query_range a b).Sublist s.points := by
    rw [query_range_eq_filter s ⟨hpar, hsort⟩ a b]
    exact List.filter_sublist s.points
  exact (hpar ▸ hsort).sublist (hsub.map Point.timestamp)

/-- C2 witness: the range query on the concrete one-point series with bounds
`[0, 9]` is the bounded filter of its points. -/
theorem C2_witness :
    (Series.buildFrom "m" [] [cpA]).query_range (some 0) (some 9)
      = (Series.buildFrom "m" [] [cpA]).points.filter
          (fun q => tsInRange (some 0) (some 9) q.timestamp) :=
  (C2_range_query_correct (Series.buildFrom "m" [] [cpA])
    (buildFrom_WF "m" [] [cpA]) (some 0) (some 9)).1

theorem insertionSort_eq_of_perm (t1 t2 : List (String × String)) (h : t1.Perm t2) :
    List.insertionSort tagOrd t1 = List.insertionSort tagOrd t2 :=
  List.eq_of_perm_of_sorted
    ((List.perm_insertionSort tagOrd t1).trans
      (h.trans (List.perm_insertionSort tagOrd t2).symm))
    (List.sorted_insertionSort tagOrd t1)
    (List.sorted_insertionSort tagOrd t2)

/-- C4 (confirmed): the series identity is the bare measurement when tags are
empty, and it is invariant under reordering of the tag pairs — two points with
the same measurement and the same tag mapping (as a multiset of pairs, i.e.
regardless of insertion order) have equal identity strings. -/
theorem C4_series_key_deterministic :
    (∀ p : Point, p.tags = [] → p.get_series_key = p.measurement) ∧
    (∀ p q : Point, p.measurement = q.measurement → p.tags.Perm q.tags →
      p.get_series_key = q.get_series_key) := by
  constructor
  · intro p hp
    unfold Point.get_series_key
    rw [if_pos (by simp [hp])]
  · intro p q hm hperm
    unfold Point.get_series_key
    by_cases hp : p.tags = []
    · have hq : q.tags = [] := (hp ▸ hperm).symm.eq_nil
      rw [if_pos (by simp [hp]), if_pos (by simp [hq])]
      exact hm
    · have hq : q.tags ≠ [] := fun hq => hp (hq ▸ hperm).eq_nil
      rw [if_neg (by simp [hp]), if_neg (by simp [hq]), hm,
        insertionSort_eq_of_perm p.tags q.tags hperm]

/-- Concrete point with two tag pairs, insertion order a-then-b. -/
def cpT1 : Point := ⟨"cpu", [], [("a", "1"), ("b", "2")], 0⟩

/-- Concrete point with the same tag mapping, insertion order b-then-a. -/
def cpT2 : Point := ⟨"cpu", [], [("b", "2"), ("a", "1")], 0⟩

/-- C4 witness: equal identity for the two tag insertion orders. -/
theorem C4_witness : cpT1.get_series_key = cpT2.get_series_key :=
  C4_series_key_deterministic.2 cpT1 cpT2 rfl (by decide)

/-- Python `field in point.fields and isinstance(point.fields[field], (int, float))`:
the numeric value of a field if present and numeric, else `none`. -/
def numContrib (fields : List (String × FValue)) (field : String) : Option ℚ :=
  match fields.lookup field with
  | some (FValue.num v) => some v
  | _ => none

/-- Embeds `AggregateMetric` (src/aggregatemetric.py).  The dataclass declares
`value: float` but the code stores Python `None` in it for `min`/`max` with no
contributions, so the model uses `Option ℚ`. -/
structure AggregateMetric where
  measurement : String
  value : Option ℚ
  tags : List (String × String)
  startTime : Timestamp
  endTime : Timestamp
  deriving Repr, DecidableEq

/-- Embeds `Aggregate.sum` (src/aggregate.py lines 14-27).  On an empty list
`points[0].timestamp` (the unguarded `startTime` argument) raises IndexError,
modelled as `Except.error .indexError`; the `if points else "sum"` guards on
`measurement`/`tags` are unreachable on that path. -/
def Aggregate.sum (points : List Point) (field : String) : Except PyErr AggregateMetric :=
  let total : ℚ := points.foldl (fun acc p =>
    match numContrib p.fields field with
    | some v => acc + v
    | none => acc) 0
  match points with
  | [] => Except.error PyErr.indexError
  | p0 :: rest =>
    Except.ok
      { measurement := p0.measurement
        value := some total
        tags := p0.tags
        startTime := p0.timestamp
        endTime := ((p0 :: rest).getLast (List.cons_ne_nil p0 rest)).timestamp }

/-- Embeds `Aggregate.average` (src/aggregate.py lines 29-45); same unguarded
`points[0].timestamp` IndexError on empty input. -/
def Aggregate.average (points : List Point) (field : String) : Except PyErr AggregateMetric :=
  let tc : ℚ × Nat := points.foldl (fun acc p =>
    match numContrib p.fields field with
    | some v => (acc.1 + v, acc.2 + 1)
    | none => acc) (0, 0)
  let avg : ℚ := if tc.2 > 0 then tc.1 / (tc.2 : ℚ) else 0
  match points with
  | [] => Except.error PyErr.indexError
  | p0 :: rest =>
    Except.ok
      { measurement := p0.measurement
        value := some avg
        tags := p0.tags
        startTime := p0.timestamp
        endTime := ((p0 :: rest).getLast (List.cons_ne_nil p0 rest)).timestamp }

/-- One step of the `minimum` accumulation loop in `Aggregate.min`. -/
def minStep (acc : Option ℚ) (v : ℚ) : Option ℚ :=
  match acc with
  | none => some v
  | some mv => if v < mv then some v else some mv

/-- One step of the `maximum` accumulation loop in `Aggregate.max`. -/
def maxStep (acc : Option ℚ) (v : ℚ) : Option ℚ :=
  match acc with
  | none => some v
  | some mv => if v > mv then some v else some mv

/-- Embeds `Aggregate.min` (src/aggregate.py lines 47-61); `minimum` stays
`None` when no point contributes, and empty input raises IndexError at
`points[0].timestamp`. -/
def Aggregate.min (points : List Point) (field : String) : Except PyErr AggregateMetric :=
  let minimum : Option ℚ := points.foldl (fun acc p =>
    match numContrib p.fields field with
    | some v => minStep acc v
    | none => acc) none
  match points with
  | [] => Except.error PyErr.indexError
  | p0 :: rest =>
    Except.ok
      { measurement := p0.measurement
        value := minimum
        tags := p0.tags
        startTime := p0.timestamp
        endTime := ((p0 :: rest).getLast (List.cons_ne_nil p0 rest)).timestamp }

/-- Embeds `Aggregate.max` (src/aggregate.py lines 63-77). -/
def Aggregate.max (points : List Point) (field : String) : Except PyErr AggregateMetric :=
  let maximum : Option ℚ := points.foldl (fun acc p =>
    match numContrib p.fields field with
    | some v => maxStep acc v
    | none => acc) none
  match points with
  | [] => Except.error PyErr.indexError
  | p0 :: rest =>
    Except.ok
      { measurement := p0.measurement
        value := maximum
        tags := p0.tags
        startTime := p0.timestamp
        endTime := ((p0 :: rest).getLast (List.cons_ne_nil p0 rest)).timestamp }

/-- The contributing values of a field across a point collection, in order. -/
def contributions (points : List Point) (field : String) : List ℚ :=
  points.filterMap (fun p => numContrib p.fields field)

/-- C3 (the claim is right, the code is wrong): every one of the four
reducers evaluates `points[0].timestamp` before any guard, so an empty point
collection raises IndexError instead of completing normally with 0.0 for
`sum`/`average` as the spec requires. -/
theorem C3_empty_aggregate_raises (field : String) :
    Aggregate.sum [] field = Except.error PyErr.indexError ∧
    Aggregate.average [] field = Except.error PyErr.indexError ∧
    Aggregate.min [] field = Except.error PyErr.indexError ∧
    Aggregate.max [] field = Except.error PyErr.indexError :=
  ⟨rfl, rfl, rfl, rfl⟩

theorem foldl_contrib {β : Type} (f : β → ℚ → β) (init : β) (pts : List Point)
    (field : String) :
    pts.foldl (fun acc p =>
      match numContrib p.fields field with
      | some v => f acc v
      | none => acc) init
      = (contributions pts field).foldl f init := by
  induction pts generalizing init with
  | nil => rfl
  | cons p ps ih =>
    cases h : numContrib p.fields field with
    | none => simp [contributions, List.filterMap_cons, h, ih, List.foldl_cons]
    | some v => simp [contributions, List.filterMap_cons, h, ih, List.foldl_cons]

theorem foldl_minStep_acc (l : List ℚ) : ∀ a : ℚ,
    ∃ b, l.foldl minStep (some a) = some b ∧ (b = a ∨ b ∈ l) ∧ b ≤ a ∧
      ∀ w ∈ l, b ≤ w := by
  induction l with
  | nil => intro a; exact ⟨a, rfl, Or.inl rfl, le_refl a, by simp⟩
  | cons x xs ih =>
    intro a
    by_cases hxa : x < a
    · obtain ⟨b, hfold, hmem, hle, hall⟩ := ih x
      have hstep : minStep (some a) x = some x := by simp [minStep, hxa]
      refine ⟨b, by rw [List.foldl_cons, hstep]; exact hfold, ?_, ?_, ?_⟩
      · rcases hmem with rfl | hmem
        · exact Or.inr (List.mem_cons_self b xs)
        · exact Or.inr (List.mem_cons_of_mem x hmem)
      · exact le_trans hle (le_of_lt hxa)
      · intro w hw
        rcases List.mem_cons.mp hw with rfl | hw
        · exact hle
        · exact hall w hw
    · obtain ⟨b, hfold, hmem, hle, hall⟩ := ih a
      have hstep : minStep (some a) x = some a := by simp [minStep, hxa]
      refine ⟨b, by rw [List.foldl_cons, hstep]; exact hfold, ?_, hle, ?_⟩
      · rcases hmem with rfl | hmem
        · exact Or.inl rfl
        · exact Or.inr (List.mem_cons_of_mem x hmem)
      · intro w hw
        rcases List.mem_cons.mp hw with rfl | hw
        · exact le_trans hle (le_of_not_lt hxa)
        · exact hall w hw

theorem foldl_maxStep_acc (l : List ℚ) : ∀ a : ℚ,
    ∃ b, l.foldl maxStep (some a) = some b ∧ (b = a ∨ b ∈ l) ∧ a ≤ b ∧
      ∀ w ∈ l, w ≤ b := by
  induction l with
  | nil => intro a; exact ⟨a, rfl, Or.inl rfl, le_refl a, by simp⟩
  | cons x xs ih =>
    intro a
    by_cases hxa : x > a
    · obtain ⟨b, hfold, hmem, hle, hall⟩ := ih x
      have hstep : maxStep (some a) x = some x := by simp [maxStep, hxa]
      refine ⟨b, by rw [List.foldl_cons, hstep]; exact hfold, ?_, ?_, ?_⟩
      · rcases hmem with rfl | hmem
        · exact Or.inr (List.mem_cons_self b xs)
        · exact Or.inr (List.mem_cons_of_mem x hmem)
      · exact le_trans (le_of_lt hxa) hle
      · intro w hw
        rcases List.mem_cons.mp hw with rfl | hw
        · exact hle
        · exact hall w hw
    · obtain ⟨b, hfold, hmem, hle, hall⟩ := ih a
      have hstep : maxStep (some a) x = some a := by simp [maxStep, hxa]
      refine ⟨b, by rw [List.foldl_cons, hstep]; exact hfold, ?_, hle, ?_⟩
      · rcases hmem with rfl | hmem
        · exact Or.inl rfl
        · exact Or.inr (List.mem_cons_of_mem x hmem)
      · intro w hw
        rcases List.mem_cons.mp hw with rfl | hw
        · exact le_trans (le_of_not_lt hxa) hle
        · exact hall w hw

theorem foldl_minStep_char (l : List ℚ) :
    (l.foldl minStep none = none ↔ l = []) ∧
    ∀ v, l.foldl minStep none = some v → v ∈ l ∧ ∀ w ∈ l, v ≤ w := by
  cases l with
  | nil => simp
  | cons x xs =>
    obtain ⟨b, hfold, hmem, hle, hall⟩ := foldl_minStep_acc xs x
    have hstep : minStep none x = some x := rfl
    constructor
    · constructor
      · intro h
        rw [List.foldl_cons, hstep, hfold] at h
        exact absurd h (by simp)
      · intro h
        exact absurd h (List.cons_ne_nil x xs)
    · intro v hv
      rw [List.foldl_cons, hstep, hfold] at hv
      obtain rfl : b = v := Option.some.inj hv
      constructor
      · rcases hmem with rfl | hmem
        · exact List.mem_cons_self _ _
        · exact List.mem_cons_of_mem x hmem
      · intro w hw
        rcases List.mem_cons.mp hw with rfl | hw
        · exact hle
        · exact hall w hw

theorem foldl_maxStep_char (l : List ℚ) :
    (l.foldl maxStep none = none ↔ l = []) ∧
    ∀ v, l.foldl maxStep none = some v → v ∈ l ∧ ∀ w ∈ l, w ≤ v := by
  cases l with
  | nil => simp
  | cons x xs =>
    obtain ⟨b, hfold, hmem, hle, hall⟩ := foldl_maxStep_acc xs x
    have hstep : maxStep none x = some x := rfl
    constructor
    · constructor
      · intro h
        rw [List.foldl_cons, hstep, hfold] at h
        exact absurd h (by simp)
      · intro h
        exact absurd h (List.cons_ne_nil x xs)
    · intro v hv
      rw [List.foldl_cons, hstep, hfold] at hv
      obtain rfl : b = v := Option.some.inj hv
      constructor
      · rcases hmem with rfl | hmem
        · exact List.mem_cons_self _ _
        · exact List.mem_cons_of_mem x hmem
      · intro w hw
        rcases List.mem_cons.mp hw with rfl | hw
        · exact hle
        · exact hall w hw

theorem Aggregate.min_value (p0 : Point) (rest : List Point) (f : String) :
    ∃ r, Aggregate.min (p0 :: rest) f = Except.ok r ∧
      r.value = (contributions (p0 :: rest) f).foldl minStep none :=
  ⟨_, rfl, foldl_contrib minStep none (p0 :: rest) f⟩

theorem Aggregate.max_value (p0 : Point) (rest : List Point) (f : String) :
    ∃ r, Aggregate.max (p0 :: rest) f = Except.ok r ∧
      r.value = (contributions (p0 :: rest) f).foldl maxStep none :=
  ⟨_, rfl, foldl_contrib maxStep none (p0 :: rest) f⟩

/-- C7 (confirmed): on a non-empty point collection, `min` and `max` complete
and their result value is `none` exactly when no point contributes a numeric
value for the field (never coerced to 0); when contributions exist the value is
the minimal (resp. maximal) contributing value, with non-numeric and missing
values skipped. -/
theorem C7_minmax_optional (pts : List Point) (f : String) (h : pts ≠ []) :
    ∃ rmin rmax,
      Aggregate.min pts f = Except.ok rmin ∧
      Aggregate.max pts f = Except.ok rmax ∧
      (rmin.value = none ↔ contributions pts f = []) ∧
      (rmax.value = none ↔ contributions pts f = []) ∧
      (∀ v, rmin.value = some v → v ∈ contributions pts f ∧
        ∀ w ∈ contributions pts f, v ≤ w) ∧
      (∀ v, rmax.value = some v → v ∈ contributions pts f ∧
        ∀ w ∈ contributions pts f, w ≤ v) := by
  match pts, h with
  | p0 :: rest, _ =>
    obtain ⟨rmin, hminok, hminval⟩ := Aggregate.min_value p0 rest f
    obtain ⟨rmax, hmaxok, hmaxval⟩ := Aggregate.max_value p0 rest f
    refine ⟨rmin, rmax, hminok, hmaxok, ?_, ?_, ?_, ?_⟩
    · rw [hminval]
      exact (foldl_minStep_char _).1
    · rw [hmaxval]
      exact (foldl_maxStep_char _).1
    · intro v hv
      rw [hminval] at hv
      exact (foldl_minStep_char _).2 v hv
    · intro v hv
      rw [hmaxval] at hv
      exact (foldl_maxStep_char _).2 v hv

/-- C7 witness: the theorem applied to the concrete non-empty collection
`[cpA]` and field `f`. -/
theorem C7_witness :
    ∃ rmin rmax,
      Aggregate.min [cpA] "f" = Except.ok rmin ∧
      Aggregate.max [cpA] "f" = Except.ok rmax ∧
      (rmin.value = none ↔ contributions [cpA] "f" = []) ∧
      (rmax.value = none ↔ contributions [cpA] "f" = []) ∧
      (∀ v, rmin.value = some v → v ∈ contributions [cpA] "f" ∧
        ∀ w ∈ contributions [cpA] "f", v ≤ w) ∧
      (∀ v, rmax.value = some v → v ∈ contributions [cpA] "f" ∧
        ∀ w ∈ contributions [cpA] "f", w ≤ v) :=
  C7_minmax_optional [cpA] "f" (by decide)

/-- Python `x < y` on field values: numbers and strings compare within their
own type; an ordering comparison across types raises TypeError. -/
def pyLt (a b : FValue) : Except PyErr Bool :=
  match a, b with
  | FValue.num x, FValue.num y => Except.ok (decide (x < y))
  | FValue.str x, FValue.str y => Except.ok (decide (x < y))
  | _, _ => Except.error PyErr.typeError

/-- Python `x > y` on field values. -/
def pyGt (a b : FValue) : Except PyErr Bool :=
  match a, b with
  | FValue.num x, FValue.num y => Except.ok (decide (x > y))
  | FValue.str x, FValue.str y => Except.ok (decide (x > y))
  | _, _ => Except.error PyErr.typeError

/-- Python `x <= y` on field values. -/
def pyLe (a b : FValue) : Except PyErr Bool :=
  match a, b with
  | FValue.num x, FValue.num y => Except.ok (decide (x ≤ y))
  | FValue.str x, FValue.str y => Except.ok (decide (x ≤ y))
  | _, _ => Except.error PyErr.typeError

/-- Python `x >= y` on field values. -/
def pyGe (a b : FValue) : Except PyErr Bool :=
  match a, b with
  | FValue.num x, FValue.num y => Except.ok (decide (x ≥ y))
  | FValue.str x, FValue.str y => Except.ok (decide (x ≥ y))
  | _, _ => Except.error PyErr.typeError

/-- One accumulated field predicate of `Query.where_field`: the closure
captures the field name, the operator string and the comparison value. -/
structure FieldFilter where
  name : String
  op : String
  value : FValue
  deriving Repr, DecidableEq

/-- Embeds the closure `filter_func` built by `Query.where_field`
(src/query.py lines 43-70): absent field gives `False`; otherwise the
`if`/`elif` operator chain, falling through to
`raise ValueError(f"Unsupported operator: {operator}")`. -/
def FieldFilter.eval (ff : FieldFilter) (p : Point) : Except PyErr Bool :=
  match p.fields.lookup ff.name with
  | none => Except.ok false
  | some fv =>
    if ff.op = "=" then Except.ok (decide (fv = ff.value))
    else if ff.op = "!=" then Except.ok (!decide (fv = ff.value))
    else if ff.op = ">" then pyGt fv ff.value
    else if ff.op = "<" then pyLt fv ff.value
    else if ff.op = ">=" then pyGe fv ff.value
    else if ff.op = "<=" then pyLe fv ff.value
    else Except.error (PyErr.valueError ("Unsupported operator: " ++ ff.op))

/-- Sets key `k` to `v` in an association list, Python-dict style: an existing
key keeps its position, a new key is appended. -/
def setPair {α : Type} (l : List (String × α)) (k : String) (v : α) :
    List (String × α) :=
  if l.any (fun kv => kv.1 == k) then
    l.map (fun kv => if kv.1 == k then (k, v) else kv)
  else l ++ [(k, v)]

/-- Python `dict.update`: fold `setPair` over the updates in order. -/
def dictUpdate (d upd : List (String × String)) : List (String × String) :=
  upd.foldl (fun acc kv => setPair acc kv.1 kv.2) d

/-- Embeds `Query` (src/query.py): the builder state accumulated by the
fluent setters.  `limitVal` models `_limit`. -/
structure Query where
  measurement : Option String := none
  tags : Option (List (String × String)) := none
  startTime : Option Timestamp := none
  endTime : Option Timestamp := none
  fieldFilters : List FieldFilter := []
  limitVal : Option Int := none
  deriving Repr, DecidableEq

/-- Fresh query as built by `Query.__init__`. -/
def Query.init : Query := {}

/-- Embeds `Query.from_measurement`. -/
def Query.from_measurement (q : Query) (measurement : String) : Query :=
  { q with measurement := some measurement }

/-- Embeds `Query.where_tags`: starts from `{}` when `_tags` is `None`, then
`dict.update`. -/
def Query.where_tags (q : Query) (tags : List (String × String)) : Query :=
  { q with tags := some (dictUpdate (q.tags.getD []) tags) }

/-- Embeds `Query.time_range`. -/
def Query.time_range (q : Query) (start? end? : Option Timestamp) : Query :=
  { q with startTime := start?, endTime := end? }

/-- Embeds `Query.where_field`: appends one more conjunctive predicate. -/
def Query.where_field (q : Query) (field_name operator : String) (value : FValue) :
    Query :=
  { q with fieldFilters := q.fieldFilters ++ [⟨field_name, operator, value⟩] }

/-- Embeds `Query.limit`. -/
def Query.limit (q : Query) (n : Int) : Query :=
  { q with limitVal := some n }

/-- Embeds `Query.matches_tags` (src/query.py lines 77-85): `None` filter
matches everything; otherwise every filter pair must be present with an equal
value in the point/series tags. -/
def Query.matches_tags (q : Query) (point_tags : List (String × String)) : Bool :=
  match q.tags with
  | none => true
  | some ts => ts.all (fun kv =>
      match point_tags.lookup kv.1 with
      | none => false
      | some v => v == kv.2)

/-- Embeds `Query.matches_measurement`. -/
def Query.matches_measurement (q : Query) (measurement : String) : Bool :=
  match q.measurement with
  | none => true
  | some m => m == measurement

/-- Embeds `Query.matches_field_filters`: Python `all(...)` over the filter
closures in order, short-circuiting on the first `False` and propagating the
first raised exception. -/
def fieldFiltersAll (fs : List FieldFilter) (p : Point) : Except PyErr Bool :=
  match fs with
  | [] => Except.ok true
  | f :: rest =>
    match f.eval p with
    | Except.error e => Except.error e
    | Except.ok b => if b then fieldFiltersAll rest p else Except.ok false

/-- Method form of `fieldFiltersAll`. -/
def Query.matches_field_filters (q : Query) (p : Point) : Except PyErr Bool :=
  fieldFiltersAll q.fieldFilters p

/-- Inner loop of `Query.execute`: `for point in points: if
self.matches_field_filters(point): results.append(point)`, with exception
propagation. -/
def pointLoop (q : Query) : List Point → List Point → Except PyErr (List Point)
  | [], acc => Except.ok acc
  | p :: ps, acc =>
    match q.matches_field_filters p with
    | Except.error e => Except.error e
    | Except.ok b => pointLoop q ps (if b then acc ++ [p] else acc)

/-- Outer loop of `Query.execute` over `series_dict.items()` (insertion
order): a series failing the measurement or tag check is skipped; otherwise
its `query_range` slice is scanned by `pointLoop`. -/
def execLoop (q : Query) : List (String × Series) → List Point →
    Except PyErr (List Point)
  | [], acc => Except.ok acc
  | kv :: rest, acc =>
    if !q.matches_measurement kv.2.measurement then execLoop q rest acc
    else if !q.matches_tags kv.2.tags then execLoop q rest acc
    else
      match pointLoop q (kv.2.query_range q.startTime q.endTime) acc with
      | Except.error e => Except.error e
      | Except.ok acc2 => execLoop q rest acc2

/-- Python `results[:n]` for an `int` `n`: a negative bound drops that many
elements from the end (clamped), a non-negative bound keeps the first `n`. -/
def pySliceTo {α : Type} (l : List α) (n : Int) : List α :=
  if n < 0 then l.take (l.length - (-n).toNat) else l.take n.toNat

/-- Embeds `Query.execute` (src/query.py lines 117-145): run the series loop
starting from an empty result list, then apply `results[:self._limit]` when a
limit was set. -/
def Query.execute (q : Query) (series_dict : List (String × Series)) :
    Except PyErr (List Point) :=
  match execLoop q series_dict [] with
  | Except.error e => Except.error e
  | Except.ok results =>
    Except.ok (match q.limitVal with
      | none => results
      | some n => pySliceTo results n)

/-- C6 (confirmed): the tag filter is a conjunctive subset match — a series
matches iff every filter key is present in its tags with an equal value,
extra series tags permitted; concretely, tags `a=1, b=2` match the filter
`a=1` but not the filter `a=1, c=3`. -/
theorem C6_tag_subset_match :
    (∀ (q : Query) (f point_tags : List (String × String)), q.tags = some f →
      (q.matches_tags point_tags = true ↔
        ∀ kv ∈ f, point_tags.lookup kv.1 = some kv.2)) ∧
    (Query.init.where_tags [("a", "1")]).matches_tags
      [("a", "1"), ("b", "2")] = true ∧
    (Query.init.where_tags [("a", "1"), ("c", "3")]).matches_tags
      [("a", "1"), ("b", "2")] = false := by
  refine ⟨?_, by decide, by decide⟩
  intro q f point_tags hq
  unfold Query.matches_tags
  rw [hq, List.all_eq_true]
  constructor
  · intro h kv hkv
    have hx := h kv hkv
    cases hl : point_tags.lookup kv.1 with
    | none => rw [hl] at hx; exact absurd hx (by simp)
    | some v =>
      rw [hl] at hx
      simp only [beq_iff_eq] at hx
      exact congrArg some hx
  · intro h kv hkv
    rw [h kv hkv]
    simp

/-- C6 witness: the subset-match characterisation applied to the concrete
filter `a=1` against tags `a=1, b=2`. -/
theorem C6_witness :
    (Query.init.where_tags [("a", "1")]).matches_tags [("a", "1"), ("b", "2")] = true
      ↔ ∀ kv ∈ [("a", "1")],
          List.lookup kv.1 ([("a", "1"), ("b", "2")] : List (String × String))
            = some kv.2 :=
  C6_tag_subset_match.1 (Query.init.where_tags [("a", "1")]) [("a", "1")]
    [("a", "1"), ("b", "2")] rfl

theorem eval_unsupported (f op : String) (v : FValue) (p : Point)
    (hop : op ∉ (["=", "!=", ">", "<", ">=", "<="] : List String)) :
    (FieldFilter.mk f op v).eval p
      = match p.fields.lookup f with
        | none => Except.ok false
        | some _ => Except.error (PyErr.valueError ("Unsupported operator: " ++ op)) := by
  simp only [List.mem_cons, List.mem_singleton, not_or] at hop
  obtain ⟨h1, h2, h3, h4, h5, h6⟩ := hop
  unfold FieldFilter.eval
  cases p.fields.lookup f with
  | none => rfl
  | some fv => simp [h1, h2, h3, h4, h5, h6]

theorem mff_unsupported (q : Query) (f op : String) (v : FValue) (p : Point)
    (hop : op ∉ (["=", "!=", ">", "<", ">=", "<="] : List String))
    (hff : q.fieldFilters = [⟨f, op, v⟩]) :
    q.matches_field_filters p
      = match p.fields.lookup f with
        | none => Except.ok false
        | some _ => Except.error (PyErr.valueError ("Unsupported operator: " ++ op)) := by
  unfold Query.matches_field_filters
  rw [hff]
  unfold fieldFiltersAll
  rw [eval_unsupported f op v p hop]
  cases p.fields.lookup f with
  | none => rfl
  | some fv => rfl

theorem pointLoop_unsupported (q : Query) (f op : String) (v : FValue)
    (hop : op ∉ (["=", "!=", ">", "<", ">=", "<="] : List String))
    (hff : q.fieldFilters = [⟨f, op, v⟩]) (pts acc : List Point) :
    pointLoop q pts acc
      = if pts.any (fun p => (p.fields.lookup f).isSome)
        then Except.error (PyErr.valueError ("Unsupported operator: " ++ op))
        else Except.ok acc := by
  induction pts generalizing acc with
  | nil => rfl
  | cons p ps ih =>
    show (match q.matches_field_filters p with
      | Except.error e => Except.error e
      | Except.ok b => pointLoop q ps (if b then acc ++ [p] else acc)) = _
    rw [mff_unsupported q f op v p hop hff, List.any_cons]
    cases hl : p.fields.lookup f with
    | none =>
      show pointLoop q ps acc = _
      rw [ih acc, Option.isSome_none, Bool.false_or]
    | some w =>
      show Except.error _ = _
      rw [Option.isSome_some, Bool.true_or]
      rfl

theorem execLoop_unsupported (q : Query) (f op : String) (v : FValue)
    (hop : op ∉ (["=", "!=", ">", "<", ">=", "<="] : List String))
    (hff : q.fieldFilters = [⟨f, op, v⟩]) (sd : List (String × Series))
    (acc : List Point) :
    execLoop q sd acc
      = if sd.any (fun kv => q.matches_measurement kv.2.measurement
            && q.matches_tags kv.2.tags
            && (kv.2.query_range q.startTime q.endTime).any
                (fun p => (p.fields.lookup f).isSome))
        then Except.error (PyErr.valueError ("Unsupported operator: " ++ op))
        else Except.ok acc := by
  induction sd generalizing acc with
  | nil => rfl
  | cons kv rest ih =>
    show (if !q.matches_measurement kv.2.measurement then execLoop q rest acc
      else if !q.matches_tags kv.2.tags then execLoop q rest acc
      else
        match pointLoop q (kv.2.query_range q.startTime q.endTime) acc with
        | Except.error e => Except.error e
        | Except.ok acc2 => execLoop q rest acc2) = _
    rw [List.any_cons, pointLoop_unsupported q f op v hop hff]
    cases hm : q.matches_measurement kv.2.measurement with
    | false =>
      show execLoop q rest acc = _
      rw [ih acc, Bool.false_and, Bool.false_and, Bool.false_or]
    | true =>
      cases ht : q.matches_tags kv.2.tags with
      | false =>
        show execLoop q rest acc = _
        rw [ih acc, Bool.true_and, Bool.false_and, Bool.false_or]
      | true =>
        cases hany : (kv.2.query_range q.startTime q.endTime).any
            (fun p => (p.fields.lookup f).isSome) with
        | false =>
          show execLoop q rest acc = _
          rw [ih acc, Bool.true_and, Bool.true_and, Bool.false_or]
        | true =>
          show Except.error _ = _
          rw [Bool.true_and, Bool.true_and, Bool.true_or]
          rfl

/-- C8 counterexample: the query built with the unsupported operator `~`
executed over an empty series collection returns `ok []` — it silently
produces a (empty) result instead of raising, refuting "for every query
containing such a predicate, evaluating the query raises an error". -/
theorem C8_counterexample :
    (Query.init.where_field "f" "~" (FValue.num 1)).execute [] = Except.ok []
      ∧ "~" ∉ (["=", "!=", ">", "<", ">=", "<="] : List String) :=
  ⟨rfl, by decide⟩

/-- C8 (amended): with a single unsupported-operator predicate, execution
raises ValueError (the distinct caller-contract error, carrying the operator)
if and only if some series passing the measurement and tag filters has a
point in the time-range slice whose field map contains the predicate's field;
when no filtered point carries the field — in particular on an empty database
— the query silently returns an empty result instead of raising. -/
theorem C8_unsupported_operator (q : Query) (f op : String) (v : FValue)
    (sd : List (String × Series))
    (hop : op ∉ (["=", "!=", ">", "<", ">=", "<="] : List String))
    (hff : q.fieldFilters = [⟨f, op, v⟩]) :
    q.execute sd
      = if sd.any (fun kv => q.matches_measurement kv.2.measurement
            && q.matches_tags kv.2.tags
            && (kv.2.query_range q.startTime q.endTime).any
                (fun p => (p.fields.lookup f).isSome))
        then Except.error (PyErr.valueError ("Unsupported operator: " ++ op))
        else Except.ok [] := by
  unfold Query.execute
  rw [execLoop_unsupported q f op v hop hff sd []]
  by_cases hany : sd.any (fun kv => q.matches_measurement kv.2.measurement
      && q.matches_tags kv.2.tags
      && (kv.2.query_range q.startTime q.endTime).any
          (fun p => (p.fields.lookup f).isSome))
  · rw [if_pos hany]
  · rw [if_neg hany]
    cases q.limitVal with
    | none => rfl
    | some n =>
      show Except.ok (pySliceTo [] n) = _
      unfold pySliceTo
      by_cases hn : n < 0
      · rw [if_pos hn, List.take_nil]
      · rw [if_neg hn, List.take_nil]

/-- Concrete series holding one point that carries field `f`. -/
def sWithF : Series := ⟨"m", [], [⟨"m", [("f", FValue.num 3)], [], 1⟩], [1]⟩

/-- C8 witness: on a database whose one series has a point carrying the
predicate's field, the `~` query raises the ValueError. -/
theorem C8_witness :
    (Query.init.where_field "f" "~" (FValue.num 1)).execute [("m", sWithF)]
      = Except.error (PyErr.valueError "Unsupported operator: ~") := by
  rw [C8_unsupported_operator (Query.init.where_field "f" "~" (FValue.num 1))
    "f" "~" (FValue.num 1) [("m", sWithF)] (by decide) rfl]
  rfl

/-- Removes the entry with key `k` from an association list (Python `del d[k]`,
or `set.discard` on the key set when the values are ignored). -/
def erasePair {α : Type} (l : List (String × α)) (k : String) :
    List (String × α) :=
  l.filter (fun kv => !(kv.1 == k))

/-- Applies `f` to the value stored under `k` (Python method call mutating
`d[k]` in place); other entries and the order are unchanged. -/
def updatePair {α : Type} (l : List (String × α)) (k : String) (f : α → α) :
    List (String × α) :=
  l.map (fun kv => if kv.1 == k then (kv.1, f kv.2) else kv)

/-- Embeds `InMemoryTSDB` (src/database.py): the primary identity-to-Series
mapping `_series` and the secondary measurement index `_measurements`
(a `defaultdict(set)`, here measurement name to list of series keys). -/
structure InMemoryTSDB where
  series : List (String × Series)
  measurements : List (String × List String)
  deriving Repr, DecidableEq

/-- Fresh database as built by `InMemoryTSDB.__init__`. -/
def InMemoryTSDB.emptyDB : InMemoryTSDB := ⟨[], []⟩

/-- Python `self._measurements[measurement].add(series_key)` on the
`defaultdict(set)`: fetch-or-create the bucket, add the key if absent. -/
def bucketAdd (ms : List (String × List String)) (m key : String) :
    List (String × List String) :=
  let bucket := (ms.lookup m).getD []
  let bucket2 := if bucket.contains key then bucket else bucket ++ [key]
  setPair ms m bucket2

/-- Shared per-point body of `InMemoryTSDB.write` (src/database.py lines
31-59, after the Point construction) and `write_points` (lines 61-71): create
and index the series on first sight of its key, then `add_point` on the
stored series. -/
def InMemoryTSDB.writePoint (db : InMemoryTSDB) (point : Point) : InMemoryTSDB :=
  if (db.series.lookup point.get_series_key).isSome then
    { db with
      series :=
        updatePair db.series point.get_series_key (fun s => s.add_point point) }
  else
    { series :=
        updatePair
          (db.series ++
            [(point.get_series_key, Series.mkEmpty point.measurement point.tags)])
          point.get_series_key (fun s => s.add_point point),
      measurements :=
        bucketAdd db.measurements point.measurement point.get_series_key }

/-- Embeds `InMemoryTSDB.write`: constructs the Point (`tags or {}` and
`timestamp or now` already resolved to the model arguments) and routes it. -/
def InMemoryTSDB.write (db : InMemoryTSDB) (measurement : String)
    (fields : List (String × FValue)) (tags : List (String × String))
    (timestamp : Timestamp) : InMemoryTSDB :=
  db.writePoint ⟨measurement, fields, tags, timestamp⟩

/-- Embeds `InMemoryTSDB.write_points`. -/
def InMemoryTSDB.write_points (db : InMemoryTSDB) (points : List Point) :
    InMemoryTSDB :=
  points.foldl InMemoryTSDB.writePoint db

/-- Loop body of `delete_measurement`: for each key of the copied bucket,
delete the series entry if present and count it. -/
def delMeasLoop : List String → Nat × List (String × Series) →
    Nat × List (String × Series)
  | [], acc => acc
  | key :: rest, (cnt, ser) =>
    if (ser.lookup key).isSome then delMeasLoop rest (cnt + 1, erasePair ser key)
    else delMeasLoop rest (cnt, ser)

/-- Embeds `InMemoryTSDB.delete_measurement` (src/database.py lines 134-151):
unknown measurement is a no-op returning 0; otherwise every key of the bucket
is removed from the primary map and the bucket itself is deleted. -/
def InMemoryTSDB.delete_measurement (db : InMemoryTSDB) (measurement : String) :
    Nat × InMemoryTSDB :=
  match db.measurements.lookup measurement with
  | none => (0, db)
  | some bucket =>
    ((delMeasLoop bucket (0, db.series)).1,
      { series := (delMeasLoop bucket (0, db.series)).2,
        measurements := erasePair db.measurements measurement })

/-- Embeds `InMemoryTSDB.delete_series` (src/database.py lines 153-169): the
key is computed from a temporary Point; if it is in the primary map, it is
deleted there and discarded from `self._measurements[measurement]` (a
`defaultdict` access that creates an empty bucket when the measurement is
unknown), and the bucket is deleted when it ends up empty — so an absent
measurement leaves `_measurements` unchanged on that branch. -/
def InMemoryTSDB.delete_series (db : InMemoryTSDB) (measurement : String)
    (tags : List (String × String)) : Bool × InMemoryTSDB :=
  if (db.series.lookup (Point.get_series_key ⟨measurement, [], tags, 0⟩)).isSome then
    (true,
      { series := erasePair db.series
          (Point.get_series_key ⟨measurement, [], tags, 0⟩),
        measurements :=
          if (((db.measurements.lookup measurement).getD []).erase
                (Point.get_series_key ⟨measurement, [], tags, 0⟩)).isEmpty then
            erasePair db.measurements measurement
          else
            setPair db.measurements measurement
              (((db.measurements.lookup measurement).getD []).erase
                (Point.get_series_key ⟨measurement, [], tags, 0⟩)) })
  else (false, db)

/-- Embeds `InMemoryTSDB.clear`. -/
def InMemoryTSDB.clearAll (_db : InMemoryTSDB) : InMemoryTSDB :=
  ⟨[], []⟩

/-- Query object built by the convenience path `InMemoryTSDB.query`
(src/database.py lines 73-105): each filter is applied only when the argument
is truthy — `if measurement:` (empty string falsy), `if tags:` (empty dict
falsy), `if start or end:` (datetime objects are always truthy, so this is
presence), `if limit:` (0 falsy). -/
def buildConvQuery (measurement : Option String)
    (tags : Option (List (String × String))) (start? end? : Option Timestamp)
    (lim : Option Int) : Query :=
  let q := Query.init
  let q := match measurement with
    | some m => if m.isEmpty then q else q.from_measurement m
    | none => q
  let q := match tags with
    | some ts => if ts.isEmpty then q else q.where_tags ts
    | none => q
  let q := if start?.isSome || end?.isSome then q.time_range start? end? else q
  let q := match lim with
    | some n => if n = 0 then q else q.limit n
    | none => q
  q

/-- Embeds `InMemoryTSDB.query`: build the convenience query and execute it
against `self._series`. -/
def InMemoryTSDB.query (db : InMemoryTSDB) (measurement : Option String)
    (tags : Option (List (String × String))) (start? end? : Option Timestamp)
    (lim : Option Int) : Except PyErr (List Point) :=
  (buildConvQuery measurement tags start? end? lim).execute db.series

/-- Embeds `InMemoryTSDB.execute_query`. -/
def InMemoryTSDB.execute_query (db : InMemoryTSDB) (q : Query) :
    Except PyErr (List Point) :=
  q.execute db.series

/-- C10 (confirmed): in the convenience path, `limit=0` is falsy so no result
cap is applied (the call equals the no-limit call), and an empty-string
measurement is falsy so no measurement filter is applied (the call equals the
no-measurement call). -/
theorem C10_falsy_filter_args (db : InMemoryTSDB)
    (m : Option String) (tags : Option (List (String × String)))
    (a b : Option Timestamp) (lim : Option Int) :
    db.query m tags a b (some 0) = db.query m tags a b none ∧
    db.query (some "") tags a b lim = db.query none tags a b lim :=
  ⟨rfl, rfl⟩

/-- State-passing form of the `Query.execute` series loop: alongside the
result it returns the series dictionary as the loop leaves it, rebuilding it
entry by entry as each iteration finishes with its `(key, series)` pair.  No
statement of the loop body (src/query.py lines 123-140) assigns to the
dictionary, a stored Series or a Point — each iteration only reads them — so
every entry is re-emitted as it was read. -/
def execLoopSt (q : Query) : List (String × Series) → List Point →
    Except PyErr (List Point) × List (String × Series)
  | [], acc => (Except.ok acc, [])
  | kv :: rest, acc =>
    if !q.matches_measurement kv.2.measurement then
      let r := execLoopSt q rest acc
      (r.1, kv :: r.2)
    else if !q.matches_tags kv.2.tags then
      let r := execLoopSt q rest acc
      (r.1, kv :: r.2)
    else
      match pointLoop q (kv.2.query_range q.startTime q.endTime) acc with
      | Except.error e => (Except.error e, kv :: rest)
      | Except.ok acc2 =>
        let r := execLoopSt q rest acc2
        (r.1, kv :: r.2)

theorem execLoopSt_cons (q : Query) (kv : String × Series)
    (rest : List (String × Series)) (acc : List Point) :
    execLoopSt q (kv :: rest) acc
      = if !q.matches_measurement kv.2.measurement then
          ((execLoopSt q rest acc).1, kv :: (execLoopSt q rest acc).2)
        else if !q.matches_tags kv.2.tags then
          ((execLoopSt q rest acc).1, kv :: (execLoopSt q rest acc).2)
        else
          match pointLoop q (kv.2.query_range q.startTime q.endTime) acc with
          | Except.error e => (Except.error e, kv :: rest)
          | Except.ok acc2 =>
            ((execLoopSt q rest acc2).1, kv :: (execLoopSt q rest acc2).2) := rfl

theorem execLoop_cons (q : Query) (kv : String × Series)
    (rest : List (String × Series)) (acc : List Point) :
    execLoop q (kv :: rest) acc
      = if !q.matches_measurement kv.2.measurement then execLoop q rest acc
        else if !q.matches_tags kv.2.tags then execLoop q rest acc
        else
          match pointLoop q (kv.2.query_range q.startTime q.endTime) acc with
          | Except.error e => Except.error e
          | Except.ok acc2 => execLoop q rest acc2 := rfl

theorem execLoopSt_spec (q : Query) (sd : List (String × Series)) :
    ∀ acc : List Point,
      (execLoopSt q sd acc).2 = sd ∧ (execLoopSt q sd acc).1 = execLoop q sd acc := by
  induction sd with
  | nil => intro acc; exact ⟨rfl, rfl⟩
  | cons kv rest ih =>
    intro acc
    rw [execLoopSt_cons, execLoop_cons]
    by_cases hm : q.matches_measurement kv.2.measurement
    · by_cases ht : q.matches_tags kv.2.tags
      · cases hp : pointLoop q (kv.2.query_range q.startTime q.endTime) acc with
        | error e => simp [hm, ht]
        | ok acc2 =>
          have h2 := ih acc2
          simp [hm, ht, h2.1, h2.2]
      · have h2 := ih acc
        simp [hm, ht, h2.1, h2.2]
    · have h2 := ih acc
      simp [hm, h2.1, h2.2]

/-- State-passing form of `Query.execute`: the pair of the result and the
series dictionary the call leaves behind. -/
def Query.executeSt (q : Query) (series_dict : List (String × Series)) :
    Except PyErr (List Point) × List (String × Series) :=
  match execLoopSt q series_dict [] with
  | (Except.error e, sd2) => (Except.error e, sd2)
  | (Except.ok results, sd2) =>
    (Except.ok (match q.limitVal with
      | none => results
      | some n => pySliceTo results n), sd2)

theorem executeSt_spec (q : Query) (sd : List (String × Series)) :
    (q.executeSt sd).2 = sd ∧ (q.executeSt sd).1 = q.execute sd := by
  have h2 := (execLoopSt_spec q sd []).1
  have h1 := (execLoopSt_spec q sd []).2
  unfold Query.executeSt Query.execute
  rw [← h1]
  cases hE : execLoopSt q sd [] with
  | mk fst snd =>
    rw [hE] at h2
    cases fst with
    | error e => exact ⟨h2, rfl⟩
    | ok results => exact ⟨h2, rfl⟩

/-- State-passing form of `InMemoryTSDB.query`: `query` builds a transient
`Query` (mutating only that local builder) and calls `execute` on
`self._series`; the object's fields are never assigned, so the post-state
carries the series dictionary exactly as `execute` returned it. -/
def InMemoryTSDB.querySt (db : InMemoryTSDB) (measurement : Option String)
    (tags : Option (List (String × String))) (start? end? : Option Timestamp)
    (lim : Option Int) : Except PyErr (List Point) × InMemoryTSDB :=
  let r := (buildConvQuery measurement tags start? end? lim).executeSt db.series
  (r.1, { db with series := r.2 })

/-- C9 (confirmed): query execution is read-only — the state-passing forms of
`Query.execute` and of the `Database.query` convenience path return the series
dictionary (resp. the whole database) unchanged, and the same result as the
plain functions. -/
theorem C9_query_read_only :
    (∀ (q : Query) (sd : List (String × Series)),
      (q.executeSt sd).2 = sd ∧ (q.executeSt sd).1 = q.execute sd) ∧
    (∀ (db : InMemoryTSDB) (m : Option String)
      (tags : Option (List (String × String))) (a b : Option Timestamp)
      (lim : Option Int),
      (db.querySt m tags a b lim).2 = db ∧
      (db.querySt m tags a b lim).1 = db.query m tags a b lim) := by
  refine ⟨executeSt_spec, ?_⟩
  intro db m tags a b lim
  obtain ⟨h2, h1⟩ := executeSt_spec (buildConvQuery m tags a b lim) db.series
  constructor
  · show { db with
        series := ((buildConvQuery m tags a b lim).executeSt db.series).2 } = db
    rw [h2]
  · exact h1

/-- Key list of an association list (the Python dict's key view). -/
def keysOf {α : Type} (l : List (String × α)) : List String := l.map Prod.fst

theorem keysOf_cons {α : Type} (kv : String × α) (t : List (String × α)) :
    keysOf (kv :: t) = kv.1 :: keysOf t := rfl

theorem keysOf_append {α : Type} (l1 l2 : List (String × α)) :
    keysOf (l1 ++ l2) = keysOf l1 ++ keysOf l2 := by
  unfold keysOf
  rw [List.map_append]

theorem mem_keysOf {α : Type} {l : List (String × α)} {k : String} :
    k ∈ keysOf l ↔ ∃ v, (k, v) ∈ l := by
  unfold keysOf
  constructor
  · intro h
    obtain ⟨⟨a, b⟩, hab, hk⟩ := List.mem_map.mp h
    exact ⟨b, by rwa [show a = k from hk] at hab⟩
  · rintro ⟨v, hv⟩
    exact List.mem_map.mpr ⟨(k, v), hv, rfl⟩

theorem mem_keysOf_of_mem {α : Type} {l : List (String × α)} {k : String} {v : α}
    (h : (k, v) ∈ l) : k ∈ keysOf l :=
  mem_keysOf.mpr ⟨v, h⟩

theorem lookup_isSome_iff {α : Type} (l : List (String × α)) (k : String) :
    (l.lookup k).isSome = true ↔ k ∈ keysOf l := by
  induction l with
  | nil => simp [List.lookup, keysOf]
  | cons kv t ih =>
    obtain ⟨a, b⟩ := kv
    by_cases h : k = a
    · subst h
      rw [List.lookup_cons, beq_self_eq_true]
      simp [keysOf_cons]
    · rw [List.lookup_cons, beq_eq_false_iff_ne.mpr h, ih, keysOf_cons]
      simp [h]

theorem lookup_mem {α : Type} {l : List (String × α)} {k : String} {v : α}
    (h : l.lookup k = some v) : (k, v) ∈ l := by
  induction l with
  | nil => simp [List.lookup] at h
  | cons kv t ih =>
    obtain ⟨a, b⟩ := kv
    by_cases hk : k = a
    · subst hk
      rw [List.lookup_cons, beq_self_eq_true] at h
      obtain rfl : b = v := Option.some.inj h
      exact List.mem_cons_self _ _
    · rw [List.lookup_cons, beq_eq_false_iff_ne.mpr hk] at h
      exact List.mem_cons_of_mem _ (ih h)

theorem mem_lookup {α : Type} {l : List (String × α)} {k : String} {v : α}
    (hnd : (keysOf l).Nodup) (h : (k, v) ∈ l) : l.lookup k = some v := by
  induction l with
  | nil => cases h
  | cons kv t ih =>
    obtain ⟨a, b⟩ := kv
    rw [keysOf_cons] at hnd
    obtain ⟨hna, hnd2⟩ := List.nodup_cons.mp hnd
    rcases List.mem_cons.mp h with heq | ht
    · obtain ⟨rfl, rfl⟩ := Prod.mk.injEq .. ▸ heq
      rw [List.lookup_cons, beq_self_eq_true]
    · have hk : k ≠ a := by
        rintro rfl
        exact hna (mem_keysOf_of_mem ht)
      rw [List.lookup_cons, beq_eq_false_iff_ne.mpr hk]
      exact ih hnd2 ht

theorem mem_erasePair {α : Type} {l : List (String × α)} {k : String}
    {x : String × α} : x ∈ erasePair l k ↔ x ∈ l ∧ x.1 ≠ k := by
  unfold erasePair
  rw [List.mem_filter]
  simp

theorem mem_keysOf_erasePair {α : Type} (l : List (String × α)) (k k' : String) :
    k' ∈ keysOf (erasePair l k) ↔ k' ∈ keysOf l ∧ k' ≠ k := by
  constructor
  · intro h
    obtain ⟨v, hv⟩ := mem_keysOf.mp h
    obtain ⟨hl, hne⟩ := mem_erasePair.mp hv
    exact ⟨mem_keysOf_of_mem hl, hne⟩
  · rintro ⟨h, hne⟩
    obtain ⟨v, hv⟩ := mem_keysOf.mp h
    exact mem_keysOf_of_mem (mem_erasePair.mpr ⟨hv, hne⟩)

theorem nodup_keysOf_erasePair {α : Type} {l : List (String × α)} (k : String)
    (h : (keysOf l).Nodup) : (keysOf (erasePair l k)).Nodup :=
  h.sublist ((List.filter_sublist l).map Prod.fst)

theorem any_keys_iff {α : Type} (l : List (String × α)) (k : String) :
    l.any (fun kv => kv.1 == k) = true ↔ k ∈ keysOf l := by
  rw [List.any_eq_true]
  constructor
  · rintro ⟨⟨a, b⟩, hab, hbeq⟩
    obtain rfl : a = k := beq_iff_eq.mp hbeq
    exact mem_keysOf_of_mem hab
  · intro h
    obtain ⟨v, hv⟩ := mem_keysOf.mp h
    exact ⟨(k, v), hv, beq_self_eq_true k⟩

theorem setPair_present {α : Type} (l : List (String × α)) (k : String) (v : α)
    (h : k ∈ keysOf l) :
    setPair l k v = l.map (fun kv => if kv.1 == k then (k, v) else kv) := by
  unfold setPair
  rw [if_pos ((any_keys_iff l k).mpr h)]

theorem setPair_absent {α : Type} (l : List (String × α)) (k : String) (v : α)
    (h : k ∉ keysOf l) : setPair l k v = l ++ [(k, v)] := by
  unfold setPair
  rw [if_neg (fun hc => h ((any_keys_iff l k).mp hc))]

theorem keysOf_setPair_present {α : Type} (l : List (String × α)) (k : String)
    (v : α) (h : k ∈ keysOf l) : keysOf (setPair l k v) = keysOf l := by
  rw [setPair_present l k v h]
  unfold keysOf
  rw [List.map_map]
  apply List.map_congr_left
  intro kv _
  by_cases hb : kv.1 = k
  · simp [Function.comp, hb]
  · simp [Function.comp, beq_eq_false_iff_ne.mpr hb]

theorem keysOf_setPair_absent {α : Type} (l : List (String × α)) (k : String)
    (v : α) (h : k ∉ keysOf l) : keysOf (setPair l k v) = keysOf l ++ [k] := by
  rw [setPair_absent l k v h, keysOf_append]
  rfl

theorem mem_setPair_present {α : Type} {l : List (String × α)} {k : String}
    {v : α} {x : String × α} (h : k ∈ keysOf l) :
    x ∈ setPair l k v ↔ (x ∈ l ∧ x.1 ≠ k) ∨ x = (k, v) := by
  rw [setPair_present l k v h, List.mem_map]
  constructor
  · rintro ⟨kv, hkv, hfx⟩
    by_cases hb : kv.1 = k
    · right
      rw [beq_iff_eq.mpr hb, if_pos rfl] at hfx
      exact hfx.symm
    · left
      rw [beq_eq_false_iff_ne.mpr hb] at hfx
      simp only [Bool.false_eq_true, if_false] at hfx
      subst hfx
      exact ⟨hkv, hb⟩
  · rintro (⟨hx, hne⟩ | rfl)
    · exact ⟨x, hx, by rw [beq_eq_false_iff_ne.mpr hne]; simp⟩
    · obtain ⟨w, hw⟩ := mem_keysOf.mp h
      exact ⟨(k, w), hw, by simp⟩

theorem mem_setPair_absent {α : Type} {l : List (String × α)} {k : String}
    {v : α} {x : String × α} (h : k ∉ keysOf l) :
    x ∈ setPair l k v ↔ x ∈ l ∨ x = (k, v) := by
  rw [setPair_absent l k v h]
  simp

theorem keysOf_updatePair {α : Type} (l : List (String × α)) (k : String)
    (f : α → α) : keysOf (updatePair l k f) = keysOf l := by
  unfold updatePair keysOf
  rw [List.map_map]
  apply List.map_congr_left
  intro kv _
  by_cases hb : kv.1 = k
  · simp [Function.comp, beq_iff_eq.mpr hb]
  · simp [Function.comp, beq_eq_false_iff_ne.mpr hb]

/-- The index-consistency invariant of the database (spec section 3), plus the
well-formedness facts the Python dict/set representation guarantees (unique
keys, duplicate-free buckets) and the structural fact that buckets of distinct
measurements are disjoint (every series key is registered only under the
measurement that first created it), which makes the invariant inductive. -/
structure Consistent (db : InMemoryTSDB) : Prop where
  seriesNodup : (keysOf db.series).Nodup
  measNodup : (keysOf db.measurements).Nodup
  bucketNodup : ∀ m b, (m, b) ∈ db.measurements → b.Nodup
  bucketNonempty : ∀ m b, (m, b) ∈ db.measurements → b ≠ []
  bucketSub : ∀ m b, (m, b) ∈ db.measurements → ∀ k ∈ b, k ∈ keysOf db.series
  seriesCov : ∀ k ∈ keysOf db.series, ∃ m b, (m, b) ∈ db.measurements ∧ k ∈ b
  bucketDisj : ∀ m1 b1 m2 b2, (m1, b1) ∈ db.measurements →
    (m2, b2) ∈ db.measurements → m1 ≠ m2 → ∀ k ∈ b1, k ∉ b2

theorem emptyDB_consistent : Consistent InMemoryTSDB.emptyDB := by
  constructor <;> simp [InMemoryTSDB.emptyDB, keysOf]

theorem clearAll_consistent (db : InMemoryTSDB) : Consistent db.clearAll := by
  constructor <;> simp [InMemoryTSDB.clearAll, keysOf]

theorem delMeasLoop_snd_keys (bucket : List String) :
    ∀ (cnt : Nat) (ser : List (String × Series)) (k : String),
      (k ∈ keysOf (delMeasLoop bucket (cnt, ser)).2 ↔
        k ∈ keysOf ser ∧ k ∉ bucket) := by
  induction bucket with
  | nil =>
    intro cnt ser k
    simp [delMeasLoop]
  | cons key rest ih =>
    intro cnt ser k
    show k ∈ keysOf (if (ser.lookup key).isSome then
        delMeasLoop rest (cnt + 1, erasePair ser key)
      else delMeasLoop rest (cnt, ser)).2 ↔ _
    by_cases h : (ser.lookup key).isSome
    · rw [if_pos h, ih, mem_keysOf_erasePair]
      constructor
      · rintro ⟨⟨hk, hne⟩, hnr⟩
        exact ⟨hk, by simp [hne, hnr]⟩
      · rintro ⟨hk, hnkr⟩
        simp only [List.mem_cons, not_or] at hnkr
        exact ⟨⟨hk, hnkr.1⟩, hnkr.2⟩
    · have hknotin : key ∉ keysOf ser := fun hmem =>
        h ((lookup_isSome_iff ser key).mpr hmem)
      rw [if_neg h, ih]
      constructor
      · rintro ⟨hk, hnr⟩
        refine ⟨hk, ?_⟩
        simp only [List.mem_cons, not_or]
        exact ⟨fun he => hknotin (he ▸ hk), hnr⟩
      · rintro ⟨hk, hn⟩
        simp only [List.mem_cons, not_or] at hn
        exact ⟨hk, hn.2⟩

theorem delMeasLoop_snd_nodup (bucket : List String) :
    ∀ (cnt : Nat) (ser : List (String × Series)),
      (keysOf ser).Nodup → (keysOf (delMeasLoop bucket (cnt, ser)).2).Nodup := by
  induction bucket with
  | nil => intro cnt ser h; exact h
  | cons key rest ih =>
    intro cnt ser h
    show (keysOf (if (ser.lookup key).isSome then
        delMeasLoop rest (cnt + 1, erasePair ser key)
      else delMeasLoop rest (cnt, ser)).2).Nodup
    by_cases hk : (ser.lookup key).isSome
    · rw [if_pos hk]
      exact ih _ _ (nodup_keysOf_erasePair key h)
    · rw [if_neg hk]
      exact ih _ _ h

theorem delete_measurement_consistent (db : InMemoryTSDB) (m : String)
    (h : Consistent db) : Consistent (db.delete_measurement m).2 := by
  unfold InMemoryTSDB.delete_measurement
  cases hm : db.measurements.lookup m with
  | none => exact h
  | some bucket =>
    show Consistent ⟨(delMeasLoop bucket (0, db.series)).2,
      erasePair db.measurements m⟩
    have hmem : (m, bucket) ∈ db.measurements := lookup_mem hm
    constructor
    · exact delMeasLoop_snd_nodup bucket 0 db.series h.seriesNodup
    · exact nodup_keysOf_erasePair m h.measNodup
    · intro m2 b hb
      exact h.bucketNodup m2 b (mem_erasePair.mp hb).1
    · intro m2 b hb
      exact h.bucketNonempty m2 b (mem_erasePair.mp hb).1
    · intro m2 b hb k hk
      obtain ⟨hb2, hne⟩ := mem_erasePair.mp hb
      rw [delMeasLoop_snd_keys]
      refine ⟨h.bucketSub m2 b hb2 k hk, ?_⟩
      intro hkb
      exact h.bucketDisj m2 b m bucket hb2 hmem hne k hk hkb
    · intro k hk
      rw [delMeasLoop_snd_keys] at hk
      obtain ⟨hkold, hknb⟩ := hk
      obtain ⟨m1, b1, hb1, hkb1⟩ := h.seriesCov k hkold
      have hm1 : m1 ≠ m := by
        rintro rfl
        have hb1eq : b1 = bucket := by
          have hx := mem_lookup h.measNodup hb1
          rw [hm] at hx
          exact (Option.some.inj hx).symm
        exact hknb (hb1eq ▸ hkb1)
      exact ⟨m1, b1, mem_erasePair.mpr ⟨hb1, hm1⟩, hkb1⟩
    · intro m1 b1 m2 b2 hb1 hb2 hne k hk
      exact h.bucketDisj m1 b1 m2 b2 (mem_erasePair.mp hb1).1
        (mem_erasePair.mp hb2).1 hne k hk

theorem consistent_congr (db2 db : InMemoryTSDB)
    (hs : keysOf db2.series = keysOf db.series)
    (hm : db2.measurements = db.measurements)
    (h : Consistent db) : Consistent db2 := by
  constructor
  · rw [hs]; exact h.seriesNodup
  · rw [hm]; exact h.measNodup
  · intro m b hb; exact h.bucketNodup m b (hm ▸ hb)
  · intro m b hb; exact h.bucketNonempty m b (hm ▸ hb)
  · intro m b hb k hk; rw [hs]; exact h.bucketSub m b (hm ▸ hb) k hk
  · intro k hk
    rw [hs] at hk
    obtain ⟨m1, b1, hb1, hkb⟩ := h.seriesCov k hk
    exact ⟨m1, b1, hm ▸ hb1, hkb⟩
  · intro m1 b1 m2 b2 hb1 hb2 hne
    exact h.bucketDisj m1 b1 m2 b2 (hm ▸ hb1) (hm ▸ hb2) hne

theorem writePoint_consistent (db : InMemoryTSDB) (p : Point)
    (h : Consistent db) : Consistent (db.writePoint p) := by
  unfold InMemoryTSDB.writePoint
  by_cases hk : (db.series.lookup p.get_series_key).isSome
  · rw [if_pos hk]
    refine consistent_congr _ db ?_ rfl h
    show keysOf (updatePair db.series p.get_series_key (fun s => s.add_point p))
        = keysOf db.series
    exact keysOf_updatePair db.series p.get_series_key _
  · rw [if_neg hk]
    have hnotin : p.get_series_key ∉ keysOf db.series := fun hmem =>
      hk ((lookup_isSome_iff _ _).mpr hmem)
    have hskeys : keysOf (updatePair
        (db.series ++ [(p.get_series_key, Series.mkEmpty p.measurement p.tags)])
        p.get_series_key (fun s => s.add_point p))
        = keysOf db.series ++ [p.get_series_key] := by
      rw [keysOf_updatePair, keysOf_append]
      rfl
    have hsnodup : (keysOf db.series ++ [p.get_series_key]).Nodup := by
      rw [List.nodup_append]
      refine ⟨h.seriesNodup, List.nodup_singleton _, ?_⟩
      intro a ha hb
      rw [List.mem_singleton] at hb
      exact hnotin (hb ▸ ha)
    cases hm : db.measurements.lookup p.measurement with
    | some b0 =>
      have hmemb0 : (p.measurement, b0) ∈ db.measurements := lookup_mem hm
      have hkeynotb0 : p.get_series_key ∉ b0 := fun hin =>
        hnotin (h.bucketSub p.measurement b0 hmemb0 _ hin)
      have hc : b0.contains p.get_series_key = false := by
        cases hcc : b0.contains p.get_series_key with
        | false => rfl
        | true =>
          rw [List.contains] at hcc
          exact absurd (List.elem_iff.mp hcc) hkeynotb0
      have hms : bucketAdd db.measurements p.measurement p.get_series_key
          = setPair db.measurements p.measurement (b0 ++ [p.get_series_key]) := by
        show setPair db.measurements p.measurement
            (if ((db.measurements.lookup p.measurement).getD
                []).contains p.get_series_key
             then (db.measurements.lookup p.measurement).getD []
             else (db.measurements.lookup p.measurement).getD []
               ++ [p.get_series_key]) = _
        rw [hm, Option.getD_some, hc]
        rfl
      have hmemkeys : p.measurement ∈ keysOf db.measurements :=
        mem_keysOf_of_mem hmemb0
      have hmsmem : ∀ x : String × List String,
          x ∈ bucketAdd db.measurements p.measurement p.get_series_key ↔
            (x ∈ db.measurements ∧ x.1 ≠ p.measurement) ∨
              x = (p.measurement, b0 ++ [p.get_series_key]) := by
        intro x
        rw [hms]
        exact mem_setPair_present hmemkeys
      constructor
      · show (keysOf (updatePair
          (db.series ++ [(p.get_series_key, Series.mkEmpty p.measurement p.tags)])
          p.get_series_key (fun s => s.add_point p))).Nodup
        rw [hskeys]
        exact hsnodup
      · show (keysOf (bucketAdd db.measurements p.measurement
          p.get_series_key)).Nodup
        rw [hms, keysOf_setPair_present _ _ _ hmemkeys]
        exact h.measNodup
      · intro m2 b hb
        rcases (hmsmem (m2, b)).mp hb with ⟨hold, _⟩ | heq
        · exact h.bucketNodup m2 b hold
        · injection heq with h1 h2
          subst h2
          rw [List.nodup_append]
          refine ⟨h.bucketNodup _ _ hmemb0, List.nodup_singleton _, ?_⟩
          intro a ha hbmem
          rw [List.mem_singleton] at hbmem
          exact hkeynotb0 (hbmem ▸ ha)
      · intro m2 b hb
        rcases (hmsmem (m2, b)).mp hb with ⟨hold, _⟩ | heq
        · exact h.bucketNonempty m2 b hold
        · injection heq with h1 h2
          subst h2
          simp
      · intro m2 b hb k hkb
        show k ∈ keysOf (updatePair
          (db.series ++ [(p.get_series_key, Series.mkEmpty p.measurement p.tags)])
          p.get_series_key (fun s => s.add_point p))
        rw [hskeys, List.mem_append]
        rcases (hmsmem (m2, b)).mp hb with ⟨hold, _⟩ | heq
        · exact Or.inl (h.bucketSub m2 b hold k hkb)
        · injection heq with h1 h2
          subst h2
          rcases List.mem_append.mp hkb with hk0 | hk1
          · exact Or.inl (h.bucketSub _ _ hmemb0 k hk0)
          · exact Or.inr hk1
      · intro k hk
        have hk2 : k ∈ keysOf db.series ++ [p.get_series_key] := by
          rw [← hskeys]
          exact hk
        rcases List.mem_append.mp hk2 with hkold | hknew
        · obtain ⟨m1, b1, hb1, hkb1⟩ := h.seriesCov k hkold
          by_cases hm1 : m1 = p.measurement
          · have hb1eq : b1 = b0 := by
              have hx := mem_lookup h.measNodup hb1
              rw [hm1, hm] at hx
              exact (Option.some.inj hx).symm
            exact ⟨p.measurement, b0 ++ [p.get_series_key],
              (hmsmem _).mpr (Or.inr rfl),
              List.mem_append.mpr (Or.inl (hb1eq ▸ hkb1))⟩
          · exact ⟨m1, b1, (hmsmem _).mpr (Or.inl ⟨hb1, hm1⟩), hkb1⟩
        · rw [List.mem_singleton] at hknew
          subst hknew
          exact ⟨p.measurement, b0 ++ [p.get_series_key],
            (hmsmem _).mpr (Or.inr rfl),
            List.mem_append.mpr (Or.inr (List.mem_singleton_self _))⟩
      · intro m1 b1 m2 b2 hb1 hb2 hne k hk1
        rcases (hmsmem (m1, b1)).mp hb1 with ⟨hold1, hne1⟩ | heq1
        · rcases (hmsmem (m2, b2)).mp hb2 with ⟨hold2, hne2⟩ | heq2
          · exact h.bucketDisj m1 b1 m2 b2 hold1 hold2 hne k hk1
          · injection heq2 with h1 h2
            subst h1
            subst h2
            intro hk2
            rcases List.mem_append.mp hk2 with hk0 | hks
            · exact h.bucketDisj m1 b1 p.measurement b0 hold1 hmemb0 hne k hk1 hk0
            · rw [List.mem_singleton] at hks
              subst hks
              exact hnotin (h.bucketSub m1 b1 hold1 _ hk1)
        · injection heq1 with h1 h2
          subst h1
          subst h2
          rcases (hmsmem (m2, b2)).mp hb2 with ⟨hold2, hne2⟩ | heq2
          · intro hk2
            rcases List.mem_append.mp hk1 with hk0 | hks
            · exact h.bucketDisj p.measurement b0 m2 b2 hmemb0 hold2 hne k hk0 hk2
            · rw [List.mem_singleton] at hks
              subst hks
              exact hnotin (h.bucketSub m2 b2 hold2 _ hk2)
          · injection heq2 with h1 h2
            exact absurd h1.symm hne
    | none =>
      have hnm : p.measurement ∉ keysOf db.measurements := by
        intro hmem
        have hx := (lookup_isSome_iff db.measurements p.measurement).mpr hmem
        rw [hm] at hx
        simp at hx
      have hms : bucketAdd db.measurements p.measurement p.get_series_key
          = db.measurements ++ [(p.measurement, [p.get_series_key])] := by
        show setPair db.measurements p.measurement
            (if ((db.measurements.lookup p.measurement).getD
                []).contains p.get_series_key
             then (db.measurements.lookup p.measurement).getD []
             else (db.measurements.lookup p.measurement).getD []
               ++ [p.get_series_key]) = _
        rw [hm, Option.getD_none]
        exact setPair_absent _ _ _ hnm
      have hmsmem : ∀ x : String × List String,
          x ∈ bucketAdd db.measurements p.measurement p.get_series_key ↔
            x ∈ db.measurements ∨ x = (p.measurement, [p.get_series_key]) := by
        intro x
        rw [hms]
        simp
      constructor
      · show (keysOf (updatePair
          (db.series ++ [(p.get_series_key, Series.mkEmpty p.measurement p.tags)])
          p.get_series_key (fun s => s.add_point p))).Nodup
        rw [hskeys]
        exact hsnodup
      · show (keysOf (bucketAdd db.measurements p.measurement
          p.get_series_key)).Nodup
        rw [hms, keysOf_append, List.nodup_append]
        refine ⟨h.measNodup, List.nodup_singleton _, ?_⟩
        intro a ha hb
        rw [show keysOf [(p.measurement, [p.get_series_key])]
            = [p.measurement] from rfl, List.mem_singleton] at hb
        exact hnm (hb ▸ ha)
      · intro m2 b hb
        rcases (hmsmem (m2, b)).mp hb with hold | heq
        · exact h.bucketNodup m2 b hold
        · injection heq with h1 h2
          subst h2
          exact List.nodup_singleton _
      · intro m2 b hb
        rcases (hmsmem (m2, b)).mp hb with hold | heq
        · exact h.bucketNonempty m2 b hold
        · injection heq with h1 h2
          subst h2
          simp
      · intro m2 b hb k hkb
        show k ∈ keysOf (updatePair
          (db.series ++ [(p.get_series_key, Series.mkEmpty p.measurement p.tags)])
          p.get_series_key (fun s => s.add_point p))
        rw [hskeys, List.mem_append]
        rcases (hmsmem (m2, b)).mp hb with hold | heq
        · exact Or.inl (h.bucketSub m2 b hold k hkb)
        · injection heq with h1 h2
          subst h2
          rw [List.mem_singleton] at hkb
          exact Or.inr (by rw [hkb]; exact List.mem_singleton_self _)
      · intro k hk
        have hk2 : k ∈ keysOf db.series ++ [p.get_series_key] := by
          rw [← hskeys]
          exact hk
        rcases List.mem_append.mp hk2 with hkold | hknew
        · obtain ⟨m1, b1, hb1, hkb1⟩ := h.seriesCov k hkold
          exact ⟨m1, b1, (hmsmem _).mpr (Or.inl hb1), hkb1⟩
        · rw [List.mem_singleton] at hknew
          subst hknew
          exact ⟨p.measurement, [p.get_series_key], (hmsmem _).mpr (Or.inr rfl),
            List.mem_singleton_self _⟩
      · intro m1 b1 m2 b2 hb1 hb2 hne k hk1
        rcases (hmsmem (m1, b1)).mp hb1 with hold1 | heq1
        · rcases (hmsmem (m2, b2)).mp hb2 with hold2 | heq2
          · exact h.bucketDisj m1 b1 m2 b2 hold1 hold2 hne k hk1
          · injection heq2 with h1 h2
            subst h2
            intro hk2
            rw [List.mem_singleton] at hk2
            subst hk2
            exact hnotin (h.bucketSub m1 b1 hold1 _ hk1)
        · injection heq1 with h1 h2
          subst h2
          rcases (hmsmem (m2, b2)).mp hb2 with hold2 | heq2
          · rw [List.mem_singleton] at hk1
            subst hk1
            intro hk2
            exact hnotin (h.bucketSub m2 b2 hold2 _ hk2)
          · injection heq2 with h3 h4
            exact absurd (h1.trans h3.symm) hne

theorem delete_series_consistent (db : InMemoryTSDB) (m : String)
    (tags : List (String × String)) (h : Consistent db)
    (hkey : ∀ m2 b, (m2, b) ∈ db.measurements →
      Point.get_series_key ⟨m, [], tags, 0⟩ ∈ b → m2 = m) :
    Consistent (db.delete_series m tags).2 := by
  unfold InMemoryTSDB.delete_series
  by_cases hk : (db.series.lookup (Point.get_series_key ⟨m, [], tags, 0⟩)).isSome
  · rw [if_pos hk]
    have hkin : Point.get_series_key ⟨m, [], tags, 0⟩ ∈ keysOf db.series :=
      (lookup_isSome_iff _ _).mp hk
    obtain ⟨m1, b1, hb1, hkb1⟩ := h.seriesCov _ hkin
    obtain rfl : m1 = m := hkey m1 b1 hb1 hkb1
    have hlook : db.measurements.lookup m1 = some b1 := mem_lookup h.measNodup hb1
    show Consistent
      { series := erasePair db.series (Point.get_series_key ⟨m1, [], tags, 0⟩),
        measurements :=
          if (((db.measurements.lookup m1).getD []).erase
                (Point.get_series_key ⟨m1, [], tags, 0⟩)).isEmpty then
            erasePair db.measurements m1
          else
            setPair db.measurements m1
              (((db.measurements.lookup m1).getD []).erase
                (Point.get_series_key ⟨m1, [], tags, 0⟩)) }
    rw [hlook, Option.getD_some]
    by_cases hemp : (b1.erase (Point.get_series_key ⟨m1, [], tags, 0⟩)).isEmpty
    · rw [if_pos hemp]
      rw [List.isEmpty_iff] at hemp
      have hall : ∀ k ∈ b1, k = Point.get_series_key ⟨m1, [], tags, 0⟩ := by
        intro k hkmem
        by_contra hne
        have hx : k ∈ b1.erase (Point.get_series_key ⟨m1, [], tags, 0⟩) :=
          (List.mem_erase_of_ne hne).mpr hkmem
        rw [hemp] at hx
        exact absurd hx (List.not_mem_nil k)
      constructor
      · exact nodup_keysOf_erasePair _ h.seriesNodup
      · exact nodup_keysOf_erasePair _ h.measNodup
      · intro m2 b hb
        exact h.bucketNodup m2 b (mem_erasePair.mp hb).1
      · intro m2 b hb
        exact h.bucketNonempty m2 b (mem_erasePair.mp hb).1
      · intro m2 b hb k hkb
        obtain ⟨hold, hne⟩ := mem_erasePair.mp hb
        rw [mem_keysOf_erasePair]
        refine ⟨h.bucketSub m2 b hold k hkb, ?_⟩
        intro hkeq
        exact hne (hkey m2 b hold (hkeq ▸ hkb))
      · intro k hkk
        rw [mem_keysOf_erasePair] at hkk
        obtain ⟨hkold, hkne⟩ := hkk
        obtain ⟨m2, b2, hb2, hkb2⟩ := h.seriesCov k hkold
        have hm2 : m2 ≠ m1 := by
          rintro rfl
          have hb2eq : b2 = b1 := by
            have hx := mem_lookup h.measNodup hb2
            rw [hlook] at hx
            exact (Option.some.inj hx).symm
          exact hkne (hall k (hb2eq ▸ hkb2))
        exact ⟨m2, b2, mem_erasePair.mpr ⟨hb2, hm2⟩, hkb2⟩
      · intro ma ba mb bb hba hbb hne k hka
        exact h.bucketDisj ma ba mb bb (mem_erasePair.mp hba).1
          (mem_erasePair.mp hbb).1 hne k hka
    · rw [if_neg hemp]
      have hbnodup := h.bucketNodup m1 b1 hb1
      have hmemkeys : m1 ∈ keysOf db.measurements := mem_keysOf_of_mem hb1
      have hnonemp : b1.erase (Point.get_series_key ⟨m1, [], tags, 0⟩) ≠ [] := by
        intro hnil
        rw [List.isEmpty_iff] at hemp
        exact hemp hnil
      have hmsmem : ∀ x : String × List String,
          x ∈ setPair db.measurements m1
              (b1.erase (Point.get_series_key ⟨m1, [], tags, 0⟩)) ↔
            (x ∈ db.measurements ∧ x.1 ≠ m1) ∨
              x = (m1, b1.erase (Point.get_series_key ⟨m1, [], tags, 0⟩)) :=
        fun x => mem_setPair_present hmemkeys
      constructor
      · exact nodup_keysOf_erasePair _ h.seriesNodup
      · rw [keysOf_setPair_present _ _ _ hmemkeys]
        exact h.measNodup
      · intro m2 b hb
        rcases (hmsmem (m2, b)).mp hb with ⟨hold, _⟩ | heq
        · exact h.bucketNodup m2 b hold
        · injection heq with h1 h2
          subst h2
          exact hbnodup.erase _
      · intro m2 b hb
        rcases (hmsmem (m2, b)).mp hb with ⟨hold, _⟩ | heq
        · exact h.bucketNonempty m2 b hold
        · injection heq with h1 h2
          subst h2
          exact hnonemp
      · intro m2 b hb k hkb
        rw [mem_keysOf_erasePair]
        rcases (hmsmem (m2, b)).mp hb with ⟨hold, hne⟩ | heq
        · refine ⟨h.bucketSub m2 b hold k hkb, ?_⟩
          intro hkeq
          exact hne (hkey m2 b hold (hkeq ▸ hkb))
        · injection heq with h1 h2
          subst h2
          obtain ⟨hkne, hkin2⟩ := hbnodup.mem_erase_iff.mp hkb
          exact ⟨h.bucketSub m1 b1 hb1 k hkin2, hkne⟩
      · intro k hkk
        rw [mem_keysOf_erasePair] at hkk
        obtain ⟨hkold, hkne⟩ := hkk
        obtain ⟨m2, b2, hb2, hkb2⟩ := h.seriesCov k hkold
        by_cases hm2 : m2 = m1
        · have hb2eq : b2 = b1 := by
            have hx := mem_lookup h.measNodup hb2
            rw [hm2, hlook] at hx
            exact (Option.some.inj hx).symm
          refine ⟨m1, b1.erase (Point.get_series_key ⟨m1, [], tags, 0⟩),
            (hmsmem _).mpr (Or.inr rfl), ?_⟩
          exact (List.mem_erase_of_ne hkne).mpr (hb2eq ▸ hkb2)
        · exact ⟨m2, b2, (hmsmem _).mpr (Or.inl ⟨hb2, hm2⟩), hkb2⟩
      · intro ma ba mb bb hba hbb hne k hka
        rcases (hmsmem (ma, ba)).mp hba with ⟨holda, hnea⟩ | heqa
        · rcases (hmsmem (mb, bb)).mp hbb with ⟨holdb, hneb⟩ | heqb
          · exact h.bucketDisj ma ba mb bb holda holdb hne k hka
          · injection heqb with h1 h2
            subst h2
            intro hkbmem
            have hkin2 : k ∈ b1 := List.mem_of_mem_erase hkbmem
            exact h.bucketDisj ma ba m1 b1 holda hb1 (h1 ▸ hne) k hka hkin2
        · injection heqa with h1 h2
          subst h2
          rcases (hmsmem (mb, bb)).mp hbb with ⟨holdb, hneb⟩ | heqb
          · intro hkbmem
            have hkin2 : k ∈ b1 := List.mem_of_mem_erase hka
            exact h.bucketDisj m1 b1 mb bb hb1 holdb (h1 ▸ hne) k hkin2 hkbmem
          · injection heqb with h3 h4
            exact absurd (h1.trans h3.symm) hne
  · rw [if_neg hk]
    exact h

theorem write_points_consistent (db : InMemoryTSDB) (ps : List Point)
    (h : Consistent db) : Consistent (db.write_points ps) := by
  unfold InMemoryTSDB.write_points
  induction ps generalizing db with
  | nil => exact h
  | cons p rest ih => exact ih (db.writePoint p) (writePoint_consistent db p h)

/-- Concrete database: one write of measurement `cpu` with tag `host=a`,
whose series key is the string `cpu,host=a`. -/
def db0 : InMemoryTSDB :=
  InMemoryTSDB.emptyDB.write "cpu" [] [("host", "a")] 0

theorem db0_consistent : Consistent db0 :=
  writePoint_consistent InMemoryTSDB.emptyDB ⟨"cpu", [], [("host", "a")], 0⟩
    emptyDB_consistent

/-- C5 counterexample: from the consistent one-series database,
`delete_series("cpu,host=a", {})` computes the same key string `cpu,host=a`
(a measurement name containing a comma collides with the key of `cpu` tagged
`host=a`), deletes the series from the primary map, but discards the key from
the freshly-created empty bucket of measurement `cpu,host=a` instead of the
`cpu` bucket — leaving `cpu,host=a` dangling in the `cpu` bucket of the
secondary index with no corresponding primary entry. -/
theorem C5_counterexample :
    Consistent db0 ∧ ¬ Consistent (db0.delete_series "cpu,host=a" []).2 := by
  refine ⟨db0_consistent, ?_⟩
  intro hc
  have hdel : (db0.delete_series "cpu,host=a" []).2
      = ⟨[], [("cpu", ["cpu,host=a"])]⟩ := by rfl
  rw [hdel] at hc
  have hsub := hc.bucketSub "cpu" ["cpu,host=a"] (by simp) "cpu,host=a" (by simp)
  simp [keysOf] at hsub

/-- C5 (amended): under the inductive invariant `Consistent` (the spec's
index-consistency conditions plus dict/set well-formedness and disjointness
of measurement buckets), every Database mutator preserves the invariant —
with the one proviso forced by the counterexample: `delete_series` preserves
it only when the key it computes is not registered under a different
measurement's bucket (always true when measurement names contain no comma,
impossible to violate except through key-colliding measurement names). -/
theorem C5_index_consistency (db : InMemoryTSDB) (h : Consistent db) :
    (∀ p, Consistent (db.writePoint p)) ∧
    (∀ m fields tags ts, Consistent (db.write m fields tags ts)) ∧
    (∀ ps, Consistent (db.write_points ps)) ∧
    (∀ m, Consistent (db.delete_measurement m).2) ∧
    (∀ m tags, (∀ m2 b, (m2, b) ∈ db.measurements →
        Point.get_series_key ⟨m, [], tags, 0⟩ ∈ b → m2 = m) →
      Consistent (db.delete_series m tags).2) ∧
    Consistent db.clearAll :=
  ⟨fun p => writePoint_consistent db p h,
   fun _ _ _ _ => writePoint_consistent db _ h,
   fun ps => write_points_consistent db ps h,
   fun m => delete_measurement_consistent db m h,
   fun m tags hkey => delete_series_consistent db m tags h hkey,
   clearAll_consistent db⟩

/-- C5 witness: the amended theorem applied to the concrete database `db0`,
deleting the series `cpu` tagged `host=a` (a non-colliding call). -/
theorem C5_witness :
    Consistent (db0.delete_series "cpu" [("host", "a")]).2 :=
  (C5_index_consistency db0 db0_consistent).2.2.2.2.1 "cpu" [("host", "a")]
    (by
      intro m2 b hmb hkb
      have hm : db0.measurements = [("cpu", ["cpu,host=a"])] := rfl
      rw [hm] at hmb
      simp at hmb
      exact hmb.1)
